import Mathlib

/-!
Shallow embedding of the Word-Ladder repository (src/Graph.py and
src/LadderGraph.py) and proofs about its operations.

Modelling conventions:
* Python `dict[str, set[str]]` becomes an association list
  `List (String × List String)`; Python sets become lists (membership is what
  the queries observe; claims about graphs quantify over every list order, so
  every possible Python set-iteration order is covered).
* The two unbounded `while` loops and the recursive depth-first search are
  written with an explicit fuel argument; running out of fuel is a
  distinguished result value, and termination of the source loops is the
  theorem that the canonical fuel never runs out.
* Python's function-scoped local variable `new_path` in
  `get_shortest_bfs_path` is threaded explicitly as an `Option (List String)`;
  reading it before any assignment (Python's `UnboundLocalError`) is a
  distinguished result value.
-/

namespace WordLadder

/-- Result of running a Python method that can raise `UnboundLocalError`
(modelled exactly where the source can do so) or, in this embedding,
exhaust its fuel. -/
inductive PyResult (α : Type) where
  | ok (val : α)
  | unboundLocalError
  | outOfFuel
deriving DecidableEq, Repr

/-- Graph.__init__ keeps the adjacency list as given (`self.__adjacency_list`). -/
structure Graph where
  adjacency_list : List (String × List String)
deriving DecidableEq, Repr

/-- Attribute `self.__vertices = set(adjacency_list.keys())`. -/
def Graph.vertices (g : Graph) : List String :=
  g.adjacency_list.map Prod.fst

/-- Method `is_vertex`: membership test against the vertex set. -/
def Graph.is_vertex (g : Graph) (vertex : String) : Bool :=
  g.vertices.contains vertex

/-- Lexicographic string comparison on the underlying character lists
(the order Python's `sorted` uses on `str`; proved below to agree with the
`String` linear order). -/
def pyStrLt : List Char → List Char → Bool
  | _, [] => false
  | [], _ :: _ => true
  | a :: as, b :: bs => if a < b then true else if b < a then false else pyStrLt as bs

/-- Python `tuple(sorted((vertex, neighbor)))` for two strings. -/
def sortedPair (a b : String) : String × String :=
  if pyStrLt a.data b.data then (a, b) else (b, a)

/-- Attribute `self.__edges`: for every (vertex, neighbor) pair of the
adjacency input, the sorted pair is inserted (membership in this list is
membership in the Python set). -/
def Graph.edges (g : Graph) : List (String × String) :=
  g.adjacency_list.flatMap (fun e => e.2.map (fun n => sortedPair e.1 n))

/-- Method `get_neighbors`: empty set unless the vertex is present, else the
adjacency entry (with a second `.get` defence mirrored by the inner match). -/
def Graph.get_neighbors (g : Graph) (vertex : String) : List String :=
  if g.vertices.contains vertex then
    match g.adjacency_list.lookup vertex with
    | some ns => ns
    | none => []
  else []

/-- Method `is_valid_path`: every element except the last must be a key of the
adjacency map (`for i in range(len(path) - 1)`). -/
def Graph.is_valid_path (g : Graph) (path : List String) : Bool :=
  path.dropLast.all (fun v => (g.adjacency_list.map Prod.fst).contains v)

/-- Body of the `for neighbour in self.get_neighbors(last_node)` loop of
`get_shortest_bfs_path`.  `np` is the current value of the function-scoped
variable `new_path` (`none` = not yet assigned), `queue` is `path_queue`
with the already-dequeued `old_path` removed.  `Sum.inl` is an early
`return` (or an `UnboundLocalError`), `Sum.inr` resumes the while loop. -/
def bfsInner (target : String) (old_path : List String) :
    List String → Option (List String) → List (List String) →
    Sum (PyResult (List String)) (Option (List String) × List (List String))
  | [], np, queue => Sum.inr (np, queue)
  | n :: ns, np, queue =>
    if old_path.contains n then
      if n == target then
        match np with
        | some newp => Sum.inl (PyResult.ok newp)
        | none => Sum.inl PyResult.unboundLocalError
      else bfsInner target old_path ns np queue
    else
      if n == target then Sum.inl (PyResult.ok (old_path ++ [n]))
      else bfsInner target old_path ns (some (old_path ++ [n]))
        (queue ++ [old_path ++ [n]])

/-- While loop of `get_shortest_bfs_path`: dequeue `old_path` from the front,
run the neighbor loop, stop on an early return; an empty queue returns the
empty tuple. -/
def bfsAux (g : Graph) (target : String) :
    Nat → Option (List String) → List (List String) → PyResult (List String)
  | 0, _, _ => PyResult.outOfFuel
  | _ + 1, _, [] => PyResult.ok []
  | fuel + 1, np, old_path :: rest =>
    match bfsInner target old_path (g.get_neighbors (old_path.getLastD "")) np rest with
    | Sum.inl r => r
    | Sum.inr (np2, queue2) => bfsAux g target fuel np2 queue2

/-- Every string that can ever appear on a queued path: the start vertex and
every value occurring in some neighbor list. -/
def Graph.universeFrom (g : Graph) (start : String) : List String :=
  start :: g.adjacency_list.flatMap Prod.snd

/-- Largest neighbor-list length of the graph. -/
def Graph.maxDeg (g : Graph) : Nat :=
  (g.adjacency_list.map (fun e => e.2.length)).foldr max 0

/-- Fuel that (provably) suffices for both breadth-first-search loops. -/
def Graph.bfsFuel (g : Graph) (start : String) : Nat :=
  (g.maxDeg + 1) ^ (g.universeFrom start).length + 1

/-- Method `get_shortest_bfs_path`: the queue starts as `[[start]]` and the
local variable `new_path` is unassigned. -/
def Graph.get_shortest_bfs_path (g : Graph) (start target : String) :
    PyResult (List String) :=
  bfsAux g target (g.bfsFuel start) none [[start]]

/-- Method `get_shortest_bfs_path_length`: `len(path) - 1` for a truthy
(non-empty) tuple, `0` otherwise; exceptions propagate. -/
def Graph.get_shortest_bfs_path_length (g : Graph) (start target : String) :
    PyResult Nat :=
  match g.get_shortest_bfs_path start target with
  | PyResult.ok p => if p.isEmpty then PyResult.ok 0 else PyResult.ok (p.length - 1)
  | PyResult.unboundLocalError => PyResult.unboundLocalError
  | PyResult.outOfFuel => PyResult.outOfFuel

/-- Python `paths.add(tuple(new_path))` on a set, modelled on lists. -/
def addPath (paths : List (List String)) (p : List String) : List (List String) :=
  if paths.contains p then paths else paths ++ [p]

/-- Python `len(new_path) <= min_length` where `min_length` starts as
`float('inf')` (`none`). -/
def leMin (n : Nat) : Option Nat → Bool
  | none => true
  | some m => n ≤ m

/-- Body of the neighbor loop of `get_all_shortest_bfs_paths`: threads the
accumulated `paths`, the running `min_length` and the queue. -/
def allInner (target : String) (cur : List String) :
    List String → List (List String) → Option Nat → List (List String) →
    List (List String) × Option Nat × List (List String)
  | [], paths, minLen, queue => (paths, minLen, queue)
  | nb :: ns, paths, minLen, queue =>
    if cur.contains nb then allInner target cur ns paths minLen queue
    else
      if nb == target then
        if leMin (cur ++ [nb]).length minLen then
          allInner target cur ns (addPath paths (cur ++ [nb]))
            (some (cur ++ [nb]).length) queue
        else allInner target cur ns paths minLen queue
      else allInner target cur ns paths minLen (queue ++ [cur ++ [nb]])

/-- While loop of `get_all_shortest_bfs_paths`. -/
def allAux (g : Graph) (target : String) :
    Nat → List (List String) → Option Nat → List (List String) →
    Option (List (List String) × Option Nat)
  | 0, _, _, _ => none
  | _ + 1, paths, minLen, [] => some (paths, minLen)
  | fuel + 1, paths, minLen, cur :: rest =>
    match allInner target cur (g.get_neighbors (cur.getLastD "")) paths minLen rest with
    | (paths2, minLen2, queue2) => allAux g target fuel paths2 minLen2 queue2

/-- Method `get_all_shortest_bfs_paths`: run the loop, then keep only the
paths whose length equals the final minimum (`none` means fuel ran out,
which never happens). -/
def Graph.get_all_shortest_bfs_paths (g : Graph) (source target : String) :
    Option (List (List String)) :=
  match allAux g target (g.bfsFuel source) [] none [[source]] with
  | none => none
  | some (paths, minLen) =>
      some (paths.filter (fun p => (some p.length : Option Nat) == minLen))

/-- Python `str.lower()` (character-wise lowercasing; written on the
character list so that it evaluates by kernel reduction). -/
def pyLower (s : String) : String :=
  ⟨s.data.map Char.toLower⟩

/-- Method `hamming_distance` of LadderGraph: count of positionally differing
characters over `zip(w1, w2)` (truncated to the shorter word). -/
def hamming_distance (w1 w2 : String) : Nat :=
  (w1.data.zip w2.data).countP (fun c => c.1 != c.2)

/-- Keys of a Python dict built by repeated assignment: first-occurrence
order, duplicates collapse onto one key. -/
def pyKeys (l : List String) : List String :=
  l.foldl (fun acc w => if acc.contains w then acc else acc ++ [w]) []

/-- Method `build_adj_list`: every lowercased word maps to the set of other
lowercased words at Hamming distance exactly 1 (each key's entry depends only
on the key and the word list, so re-assignment on duplicate words is
harmless). -/
def build_adj_list (word_list : List String) : List (String × List String) :=
  (pyKeys (word_list.map pyLower)).map (fun w =>
    (w, (word_list.map pyLower).filter
          (fun o => w != o && hamming_distance w o == 1)))

/-- LadderGraph.__init__: build the adjacency list from the word list and hand
it to the Graph constructor. -/
def LadderGraph.ofWords (word_list : List String) : Graph :=
  ⟨build_adj_list word_list⟩

/-- Method `is_valid_word`: lowercased membership in the vertex set. -/
def is_valid_word (g : Graph) (word : String) : Bool :=
  g.vertices.contains (pyLower word)

/-- Consecutive-pair check of `is_valid_ladder` (the `for i in range` loop). -/
def ladderPairs : List String → Bool
  | a :: b :: rest =>
    hamming_distance (pyLower a) (pyLower b) == 1 && ladderPairs (b :: rest)
  | _ => true

/-- Method `is_valid_ladder`: at least two entries and every consecutive
lowercased pair at Hamming distance exactly 1. -/
def is_valid_ladder (ladder : List String) : Bool :=
  if ladder.length < 2 then false else ladderPairs ladder

/-- Method `get_rung_length`: `len(ladder) - 2` for a valid ladder, else -1. -/
def get_rung_length (ladder : List String) : Int :=
  if is_valid_ladder ladder then (ladder.length : Int) - 2 else -1

/-- Method `get_shortest_ladder`: guard both lowercased endpoints, then
delegate to the parent's BFS. -/
def get_shortest_ladder (g : Graph) (start target : String) :
    PyResult (List String) :=
  if !(g.vertices.contains (pyLower start)) || !(g.vertices.contains (pyLower target)) then
    PyResult.ok []
  else g.get_shortest_bfs_path (pyLower start) (pyLower target)

/-- Method `get_all_shortest_ladders`: guard both lowercased endpoints, then
delegate to the parent's all-shortest-paths BFS. -/
def get_all_shortest_ladders (g : Graph) (start target : String) :
    Option (List (List String)) :=
  if !(g.vertices.contains (pyLower start)) || !(g.vertices.contains (pyLower target)) then
    some []
  else g.get_all_shortest_bfs_paths (pyLower start) (pyLower target)

/-- Python `len(path) > max_rungs + 1` where `max_rungs` defaults to
`math.inf` (`none`). -/
def overBound (maxRungs : Option Nat) (len : Nat) : Bool :=
  match maxRungs with
  | none => false
  | some m => decide (m + 1 < len)

/-- Loop `for neighbor in self.get_neighbors(current_word)` of
`find_ladders`: `f` performs the recursive call for one unvisited neighbor,
threading the accumulated set (`none` = fuel ran out inside). -/
def dfsFold (f : String → List String → List (List String) →
      Option (List (List String))) (path : List String) :
    List String → List (List String) → Option (List (List String))
  | [], acc => some acc
  | nb :: ns, acc =>
    if path.contains nb then dfsFold f path ns acc
    else
      match f nb (path ++ [nb]) acc with
      | none => none
      | some acc2 => dfsFold f path ns acc2

/-- Inner recursive helper `find_ladders` of `get_all_ladders`: prune on the
length bound, record the path on reaching the target, otherwise recurse into
every neighbor not already on the path, threading the accumulated set. -/
def dfsAux (g : Graph) (target : String) (maxRungs : Option Nat) :
    Nat → String → List String → List (List String) →
    Option (List (List String))
  | 0, _, _, _ => none
  | fuel + 1, current, path, acc =>
    if overBound maxRungs path.length then some acc
    else if current == target then some (addPath acc path)
    else
      dfsFold (fun nb path2 acc2 => dfsAux g target maxRungs fuel nb path2 acc2)
        path (g.get_neighbors current) acc

/-- Fuel that (provably) suffices for the depth-first search. -/
def Graph.dfsFuel (g : Graph) (start : String) : Nat :=
  (g.universeFrom start).length + 2

/-- Method `get_all_ladders`: guard both lowercased endpoints, then run the
exhaustive depth-first enumeration from the lowercased start. -/
def get_all_ladders (g : Graph) (start target : String)
    (maxRungs : Option Nat) : Option (List (List String)) :=
  if !(g.vertices.contains (pyLower start)) || !(g.vertices.contains (pyLower target)) then
    some []
  else
    dfsAux g (pyLower target) maxRungs (g.dfsFuel (pyLower start))
      (pyLower start) [(pyLower start)] []

/-- Boolean walk predicate: consecutive elements are related by
`get_neighbors` (the edge relation every traversal of the source follows). -/
def isWalkB (g : Graph) : List String → Bool
  | a :: b :: rest => (g.get_neighbors a).contains b && isWalkB g (b :: rest)
  | _ => true

/-- A walk from `s` to `t`: non-empty, starts at `s`, ends at `t`, and each
element is a neighbor of the previous one. -/
def WalkFromTo (g : Graph) (s t : String) (p : List String) : Prop :=
  p ≠ [] ∧ p.head? = some s ∧ p.getLast? = some t ∧ isWalkB g p = true

instance (g : Graph) (s t : String) (p : List String) :
    Decidable (WalkFromTo g s t p) := by
  unfold WalkFromTo; infer_instance

/-- A simple walk: a walk that repeats no vertex. -/
def SimpleWalkFromTo (g : Graph) (s t : String) (p : List String) : Prop :=
  WalkFromTo g s t p ∧ p.Nodup

instance (g : Graph) (s t : String) (p : List String) :
    Decidable (SimpleWalkFromTo g s t p) := by
  unfold SimpleWalkFromTo; infer_instance

end WordLadder

namespace WordLadder

/-! ### Small list helpers -/

theorem mem_pyKeys_aux (l : List String) :
    ∀ acc x, x ∈ l.foldl
      (fun acc w => if acc.contains w then acc else acc ++ [w]) acc ↔
      x ∈ acc ∨ x ∈ l := by
  induction l with
  | nil => intro acc x; simp
  | cons a l ih =>
    intro acc x
    simp only [List.foldl_cons]
    by_cases ha : acc.contains a
    · simp only [ha, if_pos]
      rw [ih]
      constructor
      · rintro (h | h)
        · exact Or.inl h
        · exact Or.inr (List.mem_cons_of_mem _ h)
      · rintro (h | h)
        · exact Or.inl h
        · rcases List.mem_cons.mp h with rfl | h
          · exact Or.inl (by simpa using ha)
          · exact Or.inr h
    · simp only [ha, if_neg, Bool.false_eq_true, not_false_iff]
      rw [ih]
      constructor
      · rintro (h | h)
        · rcases List.mem_append.mp h with h | h
          · exact Or.inl h
          · simp at h
            exact Or.inr (by simp [h])
        · exact Or.inr (List.mem_cons_of_mem _ h)
      · rintro (h | h)
        · exact Or.inl (List.mem_append.mpr (Or.inl h))
        · rcases List.mem_cons.mp h with rfl | h
          · exact Or.inl (by simp)
          · exact Or.inr h

theorem mem_pyKeys (l : List String) (x : String) :
    x ∈ pyKeys l ↔ x ∈ l := by
  unfold pyKeys; rw [mem_pyKeys_aux]; simp

theorem pyKeys_nodup_aux (l : List String) :
    ∀ acc : List String, acc.Nodup →
      (l.foldl (fun acc w => if acc.contains w then acc else acc ++ [w]) acc).Nodup := by
  induction l with
  | nil => intro acc h; simpa using h
  | cons a l ih =>
    intro acc h
    simp only [List.foldl_cons]
    by_cases ha : acc.contains a
    · simp only [ha, if_pos]; exact ih _ h
    · simp only [ha, if_neg, Bool.false_eq_true, not_false_iff]
      refine ih _ ?_
      refine List.Nodup.append h (List.nodup_singleton a) ?_
      intro x hx hx'
      simp at hx'
      subst hx'
      exact ha (by simpa using hx)

theorem pyKeys_nodup (l : List String) : (pyKeys l).Nodup :=
  pyKeys_nodup_aux l [] List.nodup_nil

theorem lookup_map_self {β : Type} (keys : List String) (f : String → β) (u : String) :
    keys.Nodup → u ∈ keys →
    List.lookup u (keys.map (fun w => (w, f w))) = some (f u) := by
  induction keys with
  | nil => intro _ h; simp at h
  | cons k ks ih =>
    intro hnd hu
    simp only [List.map_cons, List.lookup]
    by_cases hk : u = k
    · subst hk; simp
    · have : (u == k) = false := by simp [hk]
      rw [this]
      rcases List.mem_cons.mp hu with rfl | hu
      · exact absurd rfl hk
      · exact ih (List.Nodup.of_cons hnd) hu

theorem sum_map_const {α : Type} (l : List α) (f : α → Nat) (K : Nat)
    (h : ∀ x ∈ l, f x = K) : (l.map f).sum = l.length * K := by
  induction l with
  | nil => simp
  | cons a l ih =>
    simp only [List.map_cons, List.sum_cons, List.length_cons]
    rw [h a (List.mem_cons_self a l), ih (fun x hx => h x (List.mem_cons_of_mem _ hx))]
    ring

theorem nodup_subset_length {p u : List String} (hnd : p.Nodup)
    (hsub : ∀ x ∈ p, x ∈ u) : p.length ≤ u.length := by
  calc p.length = p.toFinset.card := (List.toFinset_card_of_nodup hnd).symm
    _ ≤ u.toFinset.card := by
        apply Finset.card_le_card
        intro x hx
        simp only [List.mem_toFinset] at hx ⊢
        exact hsub x hx
    _ ≤ u.length := List.toFinset_card_le u

/-! ### Claims C1 and C3: behaviour of `get_shortest_bfs_path` at its bug -/

/-- C1: the claim says every query operation never raises; on the graph
`{"A": {"A"}}` (a self-loop, explicitly included by the claim) the call
`get_shortest_bfs_path("A", "A")` reads the local variable `new_path`
before any assignment, i.e. Python raises `UnboundLocalError`, because the
`if neighbour == target` check sits outside the `if neighbour not in
old_path` block. -/
theorem get_shortest_bfs_path_self_loop_raises :
    (Graph.mk [("A", ["A"])]).get_shortest_bfs_path "A" "A" =
      PyResult.unboundLocalError := by decide

/-- C3: the claim says `get_shortest_bfs_path(v, v)` always returns the empty
tuple and hence length 0; on the two-cycle `{"A": {"B"}, "B": {"A"}}` the
call with start = target = "A" returns the stale value `("A", "B")` of
`new_path` (not a path from "A" to "A"), so the length comes out 1. -/
theorem get_shortest_bfs_path_self_stale :
    (Graph.mk [("A", ["B"]), ("B", ["A"])]).get_shortest_bfs_path "A" "A" =
      PyResult.ok ["A", "B"] ∧
    (Graph.mk [("A", ["B"]), ("B", ["A"])]).get_shortest_bfs_path_length "A" "A" =
      PyResult.ok 1 := by decide

end WordLadder

namespace WordLadder

/-! ### Claim C7: shape and provenance of `edges` -/

theorem pyStrLt_iff (as : List Char) :
    ∀ bs, pyStrLt as bs = true ↔ List.Lex (· < ·) as bs := by
  induction as with
  | nil =>
    intro bs
    cases bs with
    | nil =>
      simp only [pyStrLt, Bool.false_eq_true, false_iff]
      intro h; cases h
    | cons b bs =>
      simp only [pyStrLt, true_iff]
      exact List.Lex.nil
  | cons a as ih =>
    intro bs
    cases bs with
    | nil =>
      simp only [pyStrLt, Bool.false_eq_true, false_iff]
      intro h; cases h
    | cons b bs =>
      rw [pyStrLt]
      by_cases h1 : a < b
      · simp only [h1, if_pos, true_iff]
        exact List.Lex.rel h1
      · by_cases h2 : b < a
        · simp only [h1, h2, if_neg, if_pos, not_false_iff, Bool.false_eq_true,
            false_iff]
          intro h
          cases h with
          | cons h3 => exact absurd h2 (lt_irrefl a)
          | rel h3 => exact h1 h3
        · have hab : a = b := le_antisymm (le_of_not_lt h2) (le_of_not_lt h1)
          subst hab
          simp only [h1, h2, if_neg, not_false_iff, ih]
          constructor
          · exact fun h => List.Lex.cons h
          · intro h
            cases h with
            | cons h3 => exact h3
            | rel h3 => exact absurd h3 h1

theorem pyStrLt_iff_string (a b : String) : pyStrLt a.data b.data = true ↔ a < b := by
  rw [pyStrLt_iff, String.lt_iff_toList_lt]
  exact ⟨fun h => h, fun h => h⟩

theorem sortedPair_le (a b : String) : (sortedPair a b).1 ≤ (sortedPair a b).2 := by
  unfold sortedPair
  by_cases h : pyStrLt a.data b.data = true
  · rw [if_pos h]
    exact le_of_lt ((pyStrLt_iff_string a b).mp h)
  · rw [if_neg h]
    exact le_of_not_lt (fun hlt => h ((pyStrLt_iff_string a b).mpr hlt))

/-- C7: every member of the `edges` set built by the constructor is a
lexicographically sorted pair whose two components were an input
(vertex, neighbor) pair in one of the two orders.  The set is a pure
function of the constructor input; no query operation writes to it (the
query operations of this embedding take the graph as a read-only value,
exactly as the source never assigns to `self.__edges` after `__init__`). -/
theorem edges_sorted_and_from_input (adj : List (String × List String)) :
    ∀ e ∈ (Graph.mk adj).edges,
      e.1 ≤ e.2 ∧
      ∃ p ∈ adj, (p.1 = e.1 ∧ e.2 ∈ p.2) ∨ (p.1 = e.2 ∧ e.1 ∈ p.2) := by
  intro e he
  simp only [Graph.edges, List.mem_flatMap, List.mem_map] at he
  obtain ⟨p, hp, n, hn, rfl⟩ := he
  refine ⟨sortedPair_le _ _, ?_⟩
  unfold sortedPair
  by_cases h : pyStrLt p.1.data n.data = true
  · rw [if_pos h]
    exact ⟨p, hp, Or.inl ⟨rfl, hn⟩⟩
  · rw [if_neg h]
    exact ⟨p, hp, Or.inr ⟨rfl, hn⟩⟩

/-- Closed instance of `edges_sorted_and_from_input` on a one-edge graph
whose single input pair is stored in reversed (sorted) order. -/
theorem edges_sorted_witness :
    ("a", "b").1 ≤ ("a", "b").2 ∧
    ∃ p ∈ [("b", ["a"])],
      (p.1 = ("a", "b").1 ∧ ("a", "b").2 ∈ p.2) ∨
      (p.1 = ("a", "b").2 ∧ ("a", "b").1 ∈ p.2) :=
  edges_sorted_and_from_input [("b", ["a"])] ("a", "b") (by decide)

/-! ### Claim C8: `is_valid_path` -/

/-- Demonstration graph of the source's `__main__` block. -/
def demoGraph : Graph :=
  Graph.mk [("A", ["B"]), ("B", ["F", "A", "D"]), ("C", ["D"]),
    ("D", ["B", "C", "E"]), ("E", ["D"]), ("F", ["B", "G"]),
    ("G", ["F", "I"]), ("H", ["I"]), ("I", ["G", "H"])]

/-- C8: `is_valid_path` holds exactly when every element but the last is a
key of the adjacency map; it holds for the empty and all one-element paths,
and (last conjunct) it does not require consecutive elements to be
adjacent: a concrete non-walk passes the check. -/
theorem is_valid_path_spec (g : Graph) (path : List String) :
    (g.is_valid_path path = true ↔
      ∀ v ∈ path.dropLast, v ∈ g.adjacency_list.map Prod.fst) ∧
    g.is_valid_path [] = true ∧
    (∀ x : String, g.is_valid_path [x] = true) ∧
    ∃ (h : Graph) (q : List String), h.is_valid_path q = true ∧
      isWalkB h q = false ∧ 2 ≤ q.length := by
  refine ⟨?_, rfl, fun x => by simp [Graph.is_valid_path], ?_⟩
  · simp [Graph.is_valid_path, List.all_eq_true]
  · exact ⟨demoGraph, ["F", "B", "D", "I"], by decide, by decide, by decide⟩

/-- Closed instance of `is_valid_path_spec`: the demo graph's "bad path"
["F", "B", "D", "I"] is accepted by `is_valid_path` even though D and I are
not adjacent. -/
theorem is_valid_path_witness :
    demoGraph.is_valid_path ["F", "B", "D", "I"] = true :=
  (is_valid_path_spec demoGraph ["F", "B", "D", "I"]).1.mpr (by decide)

/-! ### Claim C9: `is_valid_ladder` and `get_rung_length` -/

theorem ladderPairs_chain (l : List String) :
    ladderPairs l = true ↔
      List.Chain' (fun a b => hamming_distance (pyLower a) (pyLower b) = 1) l := by
  induction l with
  | nil => simp [ladderPairs]
  | cons a rest ih =>
    cases rest with
    | nil => simp [ladderPairs]
    | cons b rest2 =>
      simp only [ladderPairs, List.chain'_cons, Bool.and_eq_true, beq_iff_eq, ih]

/-- C9: `is_valid_ladder` holds exactly when the ladder has at least two
entries and every consecutive lowercased pair is at Hamming distance
exactly 1, and `get_rung_length` is `len - 2` on valid ladders and `-1`
otherwise. -/
theorem is_valid_ladder_spec (ladder : List String) :
    (is_valid_ladder ladder = true ↔
      2 ≤ ladder.length ∧
        List.Chain' (fun a b => hamming_distance (pyLower a) (pyLower b) = 1) ladder) ∧
    (is_valid_ladder ladder = true →
      get_rung_length ladder = (ladder.length : Int) - 2) ∧
    (is_valid_ladder ladder = false → get_rung_length ladder = -1) := by
  refine ⟨?_, ?_, ?_⟩
  · unfold is_valid_ladder
    by_cases h : ladder.length < 2
    · rw [if_pos h]
      simp only [Bool.false_eq_true, false_iff]
      rintro ⟨h2, -⟩
      omega
    · rw [if_neg h, ladderPairs_chain]
      exact ⟨fun hc => ⟨by omega, hc⟩, fun hc => hc.2⟩
  · intro h
    unfold get_rung_length
    rw [if_pos h]
  · intro h
    unfold get_rung_length
    rw [if_neg (by simp [h])]

/-- Closed instance of `is_valid_ladder_spec` on the two ladders of the
source demo: the valid seven-word ladder has rung length 5, the broken
six-word ladder gets -1. -/
theorem is_valid_ladder_witness :
    get_rung_length ["fool", "pool", "poll", "pall", "pale", "page", "sage"] = 5 ∧
    get_rung_length ["fool", "pool", "pall", "pale", "page", "sage"] = -1 :=
  ⟨((is_valid_ladder_spec _).2.1 (by decide)).trans (by decide),
   (is_valid_ladder_spec _).2.2 (by decide)⟩

/-! ### Claim C6: the word-ladder adjacency construction -/

theorem vertices_ofWords (ws : List String) :
    (LadderGraph.ofWords ws).vertices = pyKeys (ws.map pyLower) := by
  show List.map Prod.fst (List.map _ _) = _
  rw [List.map_map]
  exact List.map_id _

theorem get_neighbors_ofWords (ws : List String) (u : String)
    (hu : u ∈ pyKeys (ws.map pyLower)) :
    (LadderGraph.ofWords ws).get_neighbors u =
      (ws.map pyLower).filter
        (fun o => u != o && hamming_distance u o == 1) := by
  have hv : (LadderGraph.ofWords ws).vertices.contains u = true := by
    rw [vertices_ofWords]
    simpa using hu
  unfold Graph.get_neighbors
  rw [if_pos hv]
  have hadj : (LadderGraph.ofWords ws).adjacency_list =
      (pyKeys (ws.map pyLower)).map (fun w =>
        (w, (ws.map pyLower).filter
              (fun o => w != o && hamming_distance w o == 1))) := rfl
  rw [hadj, lookup_map_self _ _ u (pyKeys_nodup _) hu]

/-- C6: in a `LadderGraph` built from a word list, the vertex set is the set
of distinct lowercased words, two distinct vertices are adjacent exactly when
their zip-truncated Hamming distance is 1, and no vertex is its own
neighbor. -/
theorem build_adjacency_spec (ws : List String) :
    (LadderGraph.ofWords ws).vertices.Nodup ∧
    (∀ v, v ∈ (LadderGraph.ofWords ws).vertices ↔ ∃ w ∈ ws, (pyLower w) = v) ∧
    (∀ u w, u ∈ (LadderGraph.ofWords ws).vertices →
      w ∈ (LadderGraph.ofWords ws).vertices → u ≠ w →
      (w ∈ (LadderGraph.ofWords ws).get_neighbors u ↔
        hamming_distance u w = 1)) ∧
    (∀ v, v ∉ (LadderGraph.ofWords ws).get_neighbors v) := by
  refine ⟨?_, ?_, ?_, ?_⟩
  · rw [vertices_ofWords]; exact pyKeys_nodup _
  · intro v
    rw [vertices_ofWords, mem_pyKeys]
    simp [List.mem_map]
  · intro u w hu hw hne
    rw [vertices_ofWords] at hu hw
    rw [get_neighbors_ofWords ws u hu, List.mem_filter]
    constructor
    · rintro ⟨-, hcond⟩
      rw [Bool.and_eq_true] at hcond
      simpa using hcond.2
    · intro hd
      refine ⟨by rwa [mem_pyKeys] at hw, ?_⟩
      simp [hne, hd]
  · intro v hmem
    by_cases hv : v ∈ (LadderGraph.ofWords ws).vertices
    · rw [vertices_ofWords] at hv
      rw [get_neighbors_ofWords ws v hv, List.mem_filter] at hmem
      simpa using hmem.2
    · have : (LadderGraph.ofWords ws).vertices.contains v = false := by
        simpa using hv
      unfold Graph.get_neighbors at hmem
      rw [this] at hmem
      simp at hmem

/-- Closed instance of `build_adjacency_spec`: in the word list
["ab", "cbx"] the two words of different lengths are adjacent (the
comparison silently truncates to the shorter length). -/
theorem build_adjacency_witness :
    "cbx" ∈ (LadderGraph.ofWords ["ab", "cbx"]).get_neighbors "ab" :=
  ((build_adjacency_spec ["ab", "cbx"]).2.2.1 "ab" "cbx" (by decide)
    (by decide) (by decide)).mpr (by decide)

end WordLadder

namespace WordLadder

/-! ### Walk lemmas -/

theorem isWalkB_cons_cons (g : Graph) (a b : String) (l : List String) :
    isWalkB g (a :: b :: l) =
      ((g.get_neighbors a).contains b && isWalkB g (b :: l)) := rfl

theorem isWalkB_cons_cons_iff (g : Graph) (a b : String) (l : List String) :
    isWalkB g (a :: b :: l) = true ↔
      b ∈ g.get_neighbors a ∧ isWalkB g (b :: l) = true := by
  rw [isWalkB_cons_cons, Bool.and_eq_true]
  constructor
  · rintro ⟨h1, h2⟩; exact ⟨List.elem_iff.mp h1, h2⟩
  · rintro ⟨h1, h2⟩; exact ⟨List.elem_iff.mpr h1, h2⟩

theorem isWalkB_cons_of (g : Graph) (a b : String) (l : List String)
    (hb : b ∈ g.get_neighbors a) (hw : isWalkB g (b :: l) = true) :
    isWalkB g (a :: b :: l) = true :=
  (isWalkB_cons_cons_iff g a b l).mpr ⟨hb, hw⟩

theorem isWalkB_tail (g : Graph) (a : String) (l : List String)
    (h : isWalkB g (a :: l) = true) : isWalkB g l = true := by
  cases l with
  | nil => rfl
  | cons b rest => exact ((isWalkB_cons_cons_iff g a b rest).mp h).2

theorem isWalkB_drop_left (g : Graph) :
    ∀ xs ys, isWalkB g (xs ++ ys) = true → isWalkB g ys = true := by
  intro xs
  induction xs with
  | nil => intro ys h; simpa using h
  | cons x xs ih =>
    intro ys h
    exact ih ys (isWalkB_tail g x (xs ++ ys) h)

theorem isWalkB_append_one (g : Graph) :
    ∀ c : List String, c ≠ [] → ∀ x : String,
      (isWalkB g (c ++ [x]) = true ↔
        isWalkB g c = true ∧ x ∈ g.get_neighbors (c.getLastD "")) := by
  intro c
  induction c with
  | nil => intro h; exact absurd rfl h
  | cons a c ih =>
    intro _ x
    cases c with
    | nil =>
      simp only [List.nil_append, List.singleton_append, List.getLastD]
      rw [isWalkB_cons_cons_iff]
      constructor
      · rintro ⟨h1, -⟩; exact ⟨rfl, h1⟩
      · rintro ⟨-, h2⟩; exact ⟨h2, rfl⟩
    | cons b c2 =>
      have hne : b :: c2 ≠ [] := by simp
      have heq : (a :: b :: c2) ++ [x] = a :: ((b :: c2) ++ [x]) := rfl
      have heq2 : (b :: c2) ++ [x] = b :: (c2 ++ [x]) := rfl
      have hlast : (a :: b :: c2).getLastD "" = (b :: c2).getLastD "" := by
        simp [List.getLastD_eq_getLast?]
      rw [heq, heq2, isWalkB_cons_cons_iff, ← heq2, ih hne x, hlast,
        isWalkB_cons_cons_iff]
      tauto

theorem walk_mid_step (g : Graph) :
    ∀ xs : List String, xs ≠ [] → ∀ v ys,
      isWalkB g (xs ++ v :: ys) = true → v ∈ g.get_neighbors (xs.getLastD "") := by
  intro xs
  induction xs with
  | nil => intro h; exact absurd rfl h
  | cons a xs ih =>
    intro _ v ys hw
    cases xs with
    | nil =>
      rw [List.singleton_append, isWalkB_cons_cons_iff] at hw
      simpa [List.getLastD] using hw.1
    | cons b xs2 =>
      have hw2 : isWalkB g ((b :: xs2) ++ v :: ys) = true :=
        isWalkB_tail g a _ (by simpa using hw)
      have hlast : (a :: b :: xs2).getLastD "" = (b :: xs2).getLastD "" := by
        simp [List.getLastD_eq_getLast?]
      rw [hlast]
      exact ih (by simp) v ys hw2

end WordLadder

namespace WordLadder

theorem walkFromTo_def (g : Graph) (s t : String) (p : List String) :
    WalkFromTo g s t p ↔
      (p ≠ [] ∧ p.head? = some s ∧ p.getLast? = some t ∧ isWalkB g p = true) :=
  Iff.rfl

/-- Every walk contains a duplicate-free walk with the same endpoints, no
longer than it and using only its vertices. -/
theorem walk_shrink (g : Graph) :
    ∀ n : Nat, ∀ p s t, p.length ≤ n → WalkFromTo g s t p →
      ∃ q, WalkFromTo g s t q ∧ q.Nodup ∧ q.length ≤ p.length ∧
        ∀ x ∈ q, x ∈ p := by
  intro n
  induction n with
  | zero =>
    intro p s t hlen hw
    rw [walkFromTo_def] at hw
    cases p with
    | nil => exact absurd rfl hw.1
    | cons a l => simp at hlen
  | succ n ih =>
    intro p s t hlen hw
    by_cases hnd : p.Nodup
    · exact ⟨p, hw, hnd, le_refl _, fun x hx => hx⟩
    · rw [walkFromTo_def] at hw
      obtain ⟨hne, hhead, hlast, hwalk⟩ := hw
      cases p with
      | nil => exact absurd rfl hne
      | cons a tail =>
        have has : a = s := by simpa using hhead
        by_cases hmem : a ∈ tail
        · obtain ⟨B, C, hBC⟩ := List.append_of_mem hmem
          have hform : a :: tail = (a :: B) ++ a :: C := by rw [hBC]; rfl
          have hsub : ∀ x ∈ a :: C, x ∈ a :: tail := by
            intro x hx
            rcases List.mem_cons.mp hx with rfl | hx
            · exact List.mem_cons_self _ _
            · rw [hBC]
              exact List.mem_cons_of_mem _ (by simp [hx])
          have hlen2 : (a :: C).length ≤ n := by
            have h1 : tail.length = B.length + 1 + C.length := by
              rw [hBC]; simp; omega
            simp only [List.length_cons] at hlen ⊢
            omega
          have hwalk2 : isWalkB g (a :: C) = true :=
            isWalkB_drop_left g (a :: B) (a :: C) (by rw [← hform]; exact hwalk)
          have hlast2 : (a :: C).getLast? = some t := by
            rw [hform, List.getLast?_append_cons] at hlast
            exact hlast
          have hw2 : WalkFromTo g s t (a :: C) := by
            rw [walkFromTo_def]
            exact ⟨by simp, by simpa using has, hlast2, hwalk2⟩
          obtain ⟨q, hq, hqnd, hqlen, hqsub⟩ := ih (a :: C) s t hlen2 hw2
          refine ⟨q, hq, hqnd, ?_, fun x hx => hsub x (hqsub x hx)⟩
          have : (a :: C).length ≤ (a :: tail).length := by
            simp only [List.length_cons]
            rw [hBC]
            simp
            omega
          omega
        · have htnd : ¬ tail.Nodup := fun h => hnd (List.nodup_cons.mpr ⟨hmem, h⟩)
          cases tail with
          | nil => exact absurd List.nodup_nil htnd
          | cons b rest =>
            have hw_t : isWalkB g (b :: rest) = true := isWalkB_tail g a _ hwalk
            have hb : b ∈ g.get_neighbors a :=
              ((isWalkB_cons_cons_iff g a b rest).mp hwalk).1
            have hlast_t : (b :: rest).getLast? = some t := by
              rw [List.getLast?_cons_cons] at hlast
              exact hlast
            have hw2 : WalkFromTo g b t (b :: rest) := by
              rw [walkFromTo_def]
              exact ⟨by simp, by simp, hlast_t, hw_t⟩
            obtain ⟨q, hq, hqnd, hqlen, hqsub⟩ :=
              ih (b :: rest) b t (by simp only [List.length_cons] at hlen ⊢; omega) hw2
            rw [walkFromTo_def] at hq
            obtain ⟨hqne, hqhead, hqlast, hqwalk⟩ := hq
            cases q with
            | nil => exact absurd rfl hqne
            | cons qb qrest =>
              have hqb : qb = b := by simpa using hqhead
              subst hqb
              have hanq : a ∉ qb :: qrest := fun hx => hmem (hqsub a hx)
              refine ⟨a :: qb :: qrest, ?_, ?_, ?_, ?_⟩
              · rw [walkFromTo_def]
                refine ⟨by simp, by simpa using has, ?_, ?_⟩
                · rw [List.getLast?_cons_cons]
                  exact hqlast
                · exact isWalkB_cons_of g a qb qrest hb hqwalk
              · exact List.nodup_cons.mpr ⟨hanq, hqnd⟩
              · simp only [List.length_cons] at hqlen ⊢
                omega
              · intro x hx
                rcases List.mem_cons.mp hx with rfl | hx
                · exact List.mem_cons_self _ _
                · exact List.mem_cons_of_mem _ (hqsub x hx)

/-- Any walk gives a simple walk with the same endpoints, no longer than it. -/
theorem walk_to_simple (g : Graph) (s t : String) (p : List String)
    (hw : WalkFromTo g s t p) :
    ∃ q, SimpleWalkFromTo g s t q ∧ q.length ≤ p.length := by
  obtain ⟨q, hq, hqnd, hqlen, -⟩ := walk_shrink g p.length p s t (le_refl _) hw
  exact ⟨q, ⟨hq, hqnd⟩, hqlen⟩

end WordLadder

namespace WordLadder

/-! ### Neighbor-list bounds -/

theorem lookup_mem {l : List (String × List String)} {k : String}
    {v : List String} : l.lookup k = some v → (k, v) ∈ l := by
  induction l with
  | nil => intro h; simp [List.lookup] at h
  | cons p l ih =>
    obtain ⟨a, b⟩ := p
    intro h
    rw [List.lookup] at h
    by_cases hk : k == a
    · rw [hk] at h
      simp only [Option.some.injEq] at h
      have : k = a := by simpa using hk
      subst this
      subst h
      exact List.mem_cons_self _ _
    · rw [Bool.eq_false_iff.mpr hk] at h
      exact List.mem_cons_of_mem _ (ih h)

theorem mem_le_foldr_max : ∀ (l : List Nat) (x : Nat), x ∈ l → x ≤ l.foldr max 0 := by
  intro l
  induction l with
  | nil => intro x h; simp at h
  | cons a l ih =>
    intro x h
    rcases List.mem_cons.mp h with rfl | h
    · exact le_max_left _ _
    · exact le_trans (ih x h) (le_max_right _ _)

theorem get_neighbors_length_le (g : Graph) (v : String) :
    (g.get_neighbors v).length ≤ g.maxDeg := by
  unfold Graph.get_neighbors
  by_cases hv : g.vertices.contains v = true
  · rw [if_pos hv]
    cases hlk : g.adjacency_list.lookup v with
    | none => simp
    | some ns =>
      have hmem : (v, ns) ∈ g.adjacency_list := lookup_mem hlk
      have : ns.length ∈ g.adjacency_list.map (fun e => e.2.length) := by
        exact List.mem_map.mpr ⟨(v, ns), hmem, rfl⟩
      exact mem_le_foldr_max _ _ this
  · rw [if_neg hv]
    simp

theorem get_neighbors_sub_values (g : Graph) (v : String) :
    ∀ x ∈ g.get_neighbors v, x ∈ g.adjacency_list.flatMap Prod.snd := by
  unfold Graph.get_neighbors
  by_cases hv : g.vertices.contains v = true
  · rw [if_pos hv]
    cases hlk : g.adjacency_list.lookup v with
    | none => simp
    | some ns =>
      intro x hx
      have hmem : (v, ns) ∈ g.adjacency_list := lookup_mem hlk
      exact List.mem_flatMap.mpr ⟨(v, ns), hmem, hx⟩
  · rw [if_neg hv]
    simp

theorem get_neighbors_sub_universe (g : Graph) (s v : String) :
    ∀ x ∈ g.get_neighbors v, x ∈ g.universeFrom s := by
  intro x hx
  exact List.mem_cons_of_mem _ (get_neighbors_sub_values g v x hx)

/-! ### Termination measure for the breadth-first loops -/

/-- Weight of one queued path: strictly dominates the total weight of all of
its possible extensions. -/
def pathW (B n : Nat) (p : List String) : Nat :=
  (B + 1) ^ (n + 1 - p.length)

/-- Weight of a queue of paths. -/
def queueW (B n : Nat) (q : List (List String)) : Nat :=
  (q.map (pathW B n)).sum

theorem queueW_append (B n : Nat) (q1 q2 : List (List String)) :
    queueW B n (q1 ++ q2) = queueW B n q1 + queueW B n q2 := by
  unfold queueW
  rw [List.map_append, List.sum_append]

theorem queueW_step (B n : Nat) (c : List String)
    (rest children : List (List String))
    (hlen : ∀ ch ∈ children, ch.length = c.length + 1)
    (hcount : children.length ≤ B)
    (hbound : ∀ ch ∈ children, ch.length ≤ n) :
    queueW B n (rest ++ children) < queueW B n (c :: rest) := by
  rw [queueW_append]
  have hc : queueW B n (c :: rest) = pathW B n c + queueW B n rest := by
    unfold queueW
    simp [List.map_cons]
  rw [hc]
  have hpos : 0 < pathW B n c := Nat.pow_pos (Nat.succ_pos B)
  cases hch : children with
  | nil =>
    unfold queueW
    simp only [hch, List.map_nil, List.sum_nil]
    omega
  | cons c0 cs =>
    have hc0 : c0 ∈ children := by rw [hch]; exact List.mem_cons_self _ _
    have hlc : c.length + 1 ≤ n := by
      rw [← hlen c0 hc0]
      exact hbound c0 hc0
    have hsum : queueW B n children = children.length * (B + 1) ^ (n - c.length) := by
      unfold queueW
      apply sum_map_const
      intro ch hmem
      unfold pathW
      rw [hlen ch hmem]
      congr 1
      omega
    have hlt : children.length * (B + 1) ^ (n - c.length) < pathW B n c := by
      unfold pathW
      have h1 : n + 1 - c.length = (n - c.length) + 1 := by omega
      rw [h1, pow_succ]
      have hp : 0 < (B + 1) ^ (n - c.length) := Nat.pow_pos (Nat.succ_pos B)
      calc children.length * (B + 1) ^ (n - c.length)
          ≤ B * (B + 1) ^ (n - c.length) :=
            Nat.mul_le_mul_right _ hcount
        _ < (B + 1) * (B + 1) ^ (n - c.length) := by
            exact Nat.mul_lt_mul_of_lt_of_le (Nat.lt_succ_self B) (le_refl _) hp
        _ = (B + 1) ^ (n - c.length) * (B + 1) := by ring
    rw [← hch]
    omega

end WordLadder

namespace WordLadder

/-! ### Characterization of the inner neighbor loop of `get_shortest_bfs_path` -/

/-- Paths appended to the queue while processing `old_path = c` whose
neighbor list is `ns`. -/
def childrenOf (c ns : List String) : List (List String) :=
  (ns.filter (fun x => !(c.contains x))).map (fun x => c ++ [x])

theorem mem_childrenOf (c ns : List String) (ch : List String) :
    ch ∈ childrenOf c ns ↔ ∃ x ∈ ns, x ∉ c ∧ ch = c ++ [x] := by
  unfold childrenOf
  rw [List.mem_map]
  constructor
  · rintro ⟨x, hx, rfl⟩
    rw [List.mem_filter] at hx
    refine ⟨x, hx.1, ?_, rfl⟩
    have hfalse := hx.2
    simp only [Bool.not_eq_true'] at hfalse
    intro hmem
    have htrue : c.contains x = true := List.elem_iff.mpr hmem
    rw [htrue] at hfalse
    cases hfalse
  · rintro ⟨x, hx, hnx, rfl⟩
    refine ⟨x, ?_, rfl⟩
    rw [List.mem_filter]
    refine ⟨hx, ?_⟩
    simp only [Bool.not_eq_true']
    cases hcx : c.contains x with
    | false => rfl
    | true => exact absurd (List.elem_iff.mp hcx) hnx

theorem childrenOf_cons_mem (c : List String) (n : String) (ns : List String)
    (h : c.contains n = true) : childrenOf c (n :: ns) = childrenOf c ns := by
  unfold childrenOf
  rw [List.filter_cons, if_neg (by rw [h]; simp)]

theorem childrenOf_cons_not_mem (c : List String) (n : String) (ns : List String)
    (h : c.contains n = false) :
    childrenOf c (n :: ns) = (c ++ [n]) :: childrenOf c ns := by
  unfold childrenOf
  rw [List.filter_cons, if_pos (by rw [h]; rfl)]
  rfl

theorem childrenOf_length_le (c ns : List String) :
    (childrenOf c ns).length ≤ ns.length := by
  unfold childrenOf
  rw [List.length_map]
  exact List.length_filter_le _ _

theorem bfsInner_nil (t : String) (c : List String) (np : Option (List String))
    (q : List (List String)) : bfsInner t c [] np q = Sum.inr (np, q) := rfl

theorem bfsInner_cons (t : String) (c : List String) (n : String)
    (ns : List String) (np : Option (List String)) (q : List (List String)) :
    bfsInner t c (n :: ns) np q =
      if c.contains n then
        if n == t then
          match np with
          | some newp => Sum.inl (PyResult.ok newp)
          | none => Sum.inl PyResult.unboundLocalError
        else bfsInner t c ns np q
      else
        if n == t then Sum.inl (PyResult.ok (c ++ [n]))
        else bfsInner t c ns (some (c ++ [n])) (q ++ [c ++ [n]]) := rfl

theorem bfsInner_inr (t : String) (c : List String) :
    ∀ ns np q np2 q2, bfsInner t c ns np q = Sum.inr (np2, q2) →
      (∀ x ∈ ns, x ≠ t) ∧ q2 = q ++ childrenOf c ns := by
  intro ns
  induction ns with
  | nil =>
    intro np q np2 q2 h
    simp only [bfsInner, Sum.inr.injEq, Prod.mk.injEq] at h
    refine ⟨by simp, ?_⟩
    rw [← h.2]
    simp [childrenOf]
  | cons n ns ih =>
    intro np q np2 q2 h
    rw [bfsInner_cons] at h
    by_cases hc : c.contains n = true
    · rw [if_pos hc] at h
      by_cases hnt : (n == t) = true
      · rw [if_pos hnt] at h
        cases np with
        | some p => simp at h
        | none => simp at h
      · rw [if_neg hnt] at h
        obtain ⟨hns, hq⟩ := ih np q np2 q2 h
        refine ⟨?_, ?_⟩
        · intro x hx
          rcases List.mem_cons.mp hx with rfl | hx
          · simpa using hnt
          · exact hns x hx
        · rw [hq, childrenOf_cons_mem c n ns hc]
    · rw [if_neg hc] at h
      by_cases hnt : (n == t) = true
      · rw [if_pos hnt] at h
        simp at h
      · rw [if_neg hnt] at h
        obtain ⟨hns, hq⟩ := ih _ _ np2 q2 h
        refine ⟨?_, ?_⟩
        · intro x hx
          rcases List.mem_cons.mp hx with rfl | hx
          · simpa using hnt
          · exact hns x hx
        · rw [hq, childrenOf_cons_not_mem c n ns (Bool.eq_false_iff.mpr hc),
            List.append_assoc]
          rfl

theorem bfsInner_inl_not_fuel (t : String) (c : List String) :
    ∀ ns np q r, bfsInner t c ns np q = Sum.inl r → r ≠ PyResult.outOfFuel := by
  intro ns
  induction ns with
  | nil => intro np q r h; simp [bfsInner] at h
  | cons n ns ih =>
    intro np q r h
    rw [bfsInner_cons] at h
    by_cases hc : c.contains n = true
    · rw [if_pos hc] at h
      by_cases hnt : (n == t) = true
      · rw [if_pos hnt] at h
        cases np with
        | some p =>
          simp only [Sum.inl.injEq] at h
          rw [← h]
          simp
        | none =>
          simp only [Sum.inl.injEq] at h
          rw [← h]
          simp
      · rw [if_neg hnt] at h
        exact ih np q r h
    · rw [if_neg hc] at h
      by_cases hnt : (n == t) = true
      · rw [if_pos hnt] at h
        simp only [Sum.inl.injEq] at h
        rw [← h]
        simp
      · rw [if_neg hnt] at h
        exact ih _ _ r h

theorem bfsInner_inl_spec (t : String) (c : List String) (hct : t ∉ c) :
    ∀ ns np q r, bfsInner t c ns np q = Sum.inl r →
      r = PyResult.ok (c ++ [t]) ∧ t ∈ ns := by
  intro ns
  induction ns with
  | nil => intro np q r h; simp [bfsInner] at h
  | cons n ns ih =>
    intro np q r h
    rw [bfsInner_cons] at h
    by_cases hc : c.contains n = true
    · rw [if_pos hc] at h
      by_cases hnt : (n == t) = true
      · exfalso
        have : n = t := by simpa using hnt
        subst this
        exact hct (List.elem_iff.mp hc)
      · rw [if_neg hnt] at h
        obtain ⟨hr, hts⟩ := ih np q r h
        exact ⟨hr, List.mem_cons_of_mem _ hts⟩
    · rw [if_neg hc] at h
      by_cases hnt : (n == t) = true
      · rw [if_pos hnt] at h
        simp only [Sum.inl.injEq] at h
        have hn : n = t := by simpa using hnt
        subst hn
        exact ⟨h.symm, List.mem_cons_self _ _⟩
      · rw [if_neg hnt] at h
        obtain ⟨hr, hts⟩ := ih _ _ r h
        exact ⟨hr, List.mem_cons_of_mem _ hts⟩

/-! ### Termination of `get_shortest_bfs_path` -/

theorem bfsAux_no_fuel_out (g : Graph) (t : String) (u : List String)
    (hu : ∀ v x, x ∈ g.get_neighbors v → x ∈ u) :
    ∀ fuel queue np,
      (∀ p ∈ queue, p.Nodup ∧ ∀ x ∈ p, x ∈ u) →
      queueW g.maxDeg u.length queue < fuel →
      bfsAux g t fuel np queue ≠ PyResult.outOfFuel := by
  intro fuel
  induction fuel with
  | zero =>
    intro queue np hinv hm
    exact absurd hm (Nat.not_lt_zero _)
  | succ fuel ih =>
    intro queue np hinv hm
    cases queue with
    | nil => simp [bfsAux]
    | cons c rest =>
      rw [bfsAux]
      cases hres : bfsInner t c (g.get_neighbors (c.getLastD "")) np rest with
      | inl r =>
        simpa using bfsInner_inl_not_fuel t c _ np rest r hres
      | inr pr =>
        obtain ⟨np2, q2⟩ := pr
        obtain ⟨-, hq2⟩ := bfsInner_inr t c _ np rest np2 q2 hres
        have hcinv := hinv c (List.mem_cons_self _ _)
        have hchildinv : ∀ p ∈ childrenOf c (g.get_neighbors (c.getLastD "")),
            p.Nodup ∧ ∀ x ∈ p, x ∈ u := by
          intro p hp
          obtain ⟨x, hx, hnx, rfl⟩ := (mem_childrenOf _ _ _).mp hp
          constructor
          · rw [List.nodup_append]
            refine ⟨hcinv.1, List.nodup_singleton x, ?_⟩
            intro y hy hy'
            simp only [List.mem_singleton] at hy'
            subst hy'
            exact hnx hy
          · intro y hy
            rcases List.mem_append.mp hy with hy | hy
            · exact hcinv.2 y hy
            · simp only [List.mem_singleton] at hy
              subst hy
              exact hu _ y hx
        have hinv2 : ∀ p ∈ q2, p.Nodup ∧ ∀ x ∈ p, x ∈ u := by
          rw [hq2]
          intro p hp
          rcases List.mem_append.mp hp with hp | hp
          · exact hinv p (List.mem_cons_of_mem _ hp)
          · exact hchildinv p hp
        have hstep : queueW g.maxDeg u.length q2 <
            queueW g.maxDeg u.length (c :: rest) := by
          rw [hq2]
          apply queueW_step
          · intro ch hch
            obtain ⟨x, -, -, rfl⟩ := (mem_childrenOf _ _ _).mp hch
            simp
          · exact le_trans (childrenOf_length_le _ _) (get_neighbors_length_le g _)
          · intro ch hch
            have := hchildinv ch hch
            exact nodup_subset_length this.1 this.2
        exact ih q2 np2 hinv2 (by omega)

end WordLadder

namespace WordLadder

/-! ### FIFO length-shape invariant of the BFS queue -/

/-- Queue lengths form a block of some value `L` followed by a block of
`L + 1` (the standard breadth-first-search frontier shape). -/
def QShape (queue : List (List String)) : Prop :=
  ∃ L a b, queue.map List.length =
    List.replicate a L ++ List.replicate b (L + 1)

theorem mem_of_getLastQ {l : List String} {t : String}
    (h : l.getLast? = some t) : t ∈ l := by
  cases l with
  | nil => simp at h
  | cons a l =>
    rw [List.getLast?_eq_getLast _ (by simp)] at h
    have := Option.some.inj h
    rw [← this]
    exact List.getLast_mem _

theorem qshape_front_min (c : List String) (rest : List (List String))
    (hs : QShape (c :: rest)) : ∀ p ∈ c :: rest, c.length ≤ p.length := by
  obtain ⟨L, a, b, hmap⟩ := hs
  intro p hp
  have hpmem : p.length ∈ (c :: rest).map List.length :=
    List.mem_map.mpr ⟨p, hp, rfl⟩
  have hcmem : c.length ∈ (c :: rest).map List.length :=
    List.mem_map.mpr ⟨c, List.mem_cons_self _ _, rfl⟩
  cases a with
  | zero =>
    have h1 : (c :: rest).map List.length = List.replicate b (L + 1) := by
      simpa using hmap
    have hc : c.length = L + 1 := List.eq_of_mem_replicate (by rw [← h1]; exact hcmem)
    have hp2 : p.length = L + 1 := List.eq_of_mem_replicate (by rw [← h1]; exact hpmem)
    omega
  | succ a2 =>
    have hc : c.length = L := by
      have h2 : (c :: rest).map List.length =
          L :: (List.replicate a2 L ++ List.replicate b (L + 1)) := by
        rw [hmap, List.replicate_succ]
        rfl
      have h3 : (c :: rest).map List.length = c.length :: rest.map List.length := rfl
      rw [h3] at h2
      exact (List.cons.injEq _ _ _ _).mp h2 |>.1
    have hp2 : p.length = L ∨ p.length = L + 1 := by
      rw [hmap] at hpmem
      rcases List.mem_append.mp hpmem with h | h
      · exact Or.inl (List.eq_of_mem_replicate h)
      · exact Or.inr (List.eq_of_mem_replicate h)
    omega

theorem qshape_step (c : List String) (rest children : List (List String))
    (hs : QShape (c :: rest))
    (hch : ∀ ch ∈ children, ch.length = c.length + 1) :
    QShape (rest ++ children) := by
  obtain ⟨L, a, b, hmap⟩ := hs
  have h3 : (c :: rest).map List.length = c.length :: rest.map List.length := rfl
  have hchmap : children.map List.length =
      List.replicate children.length (c.length + 1) := by
    rw [List.eq_replicate_iff]
    refine ⟨by simp, ?_⟩
    intro x hx
    obtain ⟨ch, hmem, rfl⟩ := List.mem_map.mp hx
    exact hch ch hmem
  cases a with
  | zero =>
    have h1 : c.length :: rest.map List.length = List.replicate b (L + 1) := by
      rw [← h3, hmap]
      simp
    cases b with
    | zero => simp at h1
    | succ b2 =>
      rw [List.replicate_succ] at h1
      have hc : c.length = L + 1 := ((List.cons.injEq _ _ _ _).mp h1).1
      have hrest : rest.map List.length = List.replicate b2 (L + 1) :=
        ((List.cons.injEq _ _ _ _).mp h1).2
      refine ⟨L + 1, b2, children.length, ?_⟩
      rw [List.map_append, hrest, hchmap, hc]
  | succ a2 =>
    have h1 : c.length :: rest.map List.length =
        L :: (List.replicate a2 L ++ List.replicate b (L + 1)) := by
      rw [← h3, hmap, List.replicate_succ]
      rfl
    have hc : c.length = L := ((List.cons.injEq _ _ _ _).mp h1).1
    have hrest : rest.map List.length =
        List.replicate a2 L ++ List.replicate b (L + 1) :=
      ((List.cons.injEq _ _ _ _).mp h1).2
    refine ⟨L, a2, b + children.length, ?_⟩
    rw [List.map_append, hrest, hchmap, hc, List.replicate_add,
      List.append_assoc]

end WordLadder

namespace WordLadder

/-- Invariant of every path sitting in the queue of `get_shortest_bfs_path`
(for distinct start and target). -/
def QElem (g : Graph) (s t : String) (u : List String) (p : List String) : Prop :=
  p ≠ [] ∧ p.head? = some s ∧ isWalkB g p = true ∧ p.Nodup ∧ t ∉ p ∧
    ∀ x ∈ p, x ∈ u

/-- Master lemma for the single-shortest-path BFS loop: with the queue
invariants in force, the loop either returns the empty tuple and no simple
walk from `s` to `t` exists, or it returns a simple walk from `s` to `t` of
minimal length. -/
theorem bfs_master (g : Graph) (s t : String) (hst : s ≠ t) (u : List String)
    (hu : ∀ v x, x ∈ g.get_neighbors v → x ∈ u) :
    ∀ fuel queue np,
      queueW g.maxDeg u.length queue < fuel →
      (∀ p ∈ queue, QElem g s t u p) →
      QShape queue →
      (∀ P, SimpleWalkFromTo g s t P → ∃ q ∈ queue, ∃ d, q ++ d = P) →
      (bfsAux g t fuel np queue = PyResult.ok [] ∧
        ∀ P, ¬ SimpleWalkFromTo g s t P) ∨
      (∃ p, bfsAux g t fuel np queue = PyResult.ok p ∧
        SimpleWalkFromTo g s t p ∧
        ∀ P, SimpleWalkFromTo g s t P → p.length ≤ P.length) := by
  intro fuel
  induction fuel with
  | zero =>
    intro queue np hm
    exact absurd hm (Nat.not_lt_zero _)
  | succ fuel ih =>
    intro queue np hm hinv hshape hcompl
    cases queue with
    | nil =>
      left
      refine ⟨rfl, ?_⟩
      intro P hP
      obtain ⟨q, hq, -⟩ := hcompl P hP
      simp at hq
    | cons c rest =>
      obtain ⟨hcne, hchead, hcwalk, hcnd, hct, hcu⟩ := hinv c (List.mem_cons_self _ _)
      rw [bfsAux]
      cases hres : bfsInner t c (g.get_neighbors (c.getLastD "")) np rest with
      | inl r =>
        obtain ⟨hr, htns⟩ := bfsInner_inl_spec t c hct _ np rest r hres
        right
        refine ⟨c ++ [t], by rw [hr], ?_, ?_⟩
        · refine ⟨⟨by simp, ?_, List.getLast?_concat _, ?_⟩, ?_⟩
          · rw [List.head?_append_of_ne_nil c hcne]
            exact hchead
          · exact (isWalkB_append_one g c hcne t).mpr ⟨hcwalk, htns⟩
          · rw [List.nodup_append]
            refine ⟨hcnd, List.nodup_singleton t, ?_⟩
            intro y hy hy2
            simp only [List.mem_singleton] at hy2
            subst hy2
            exact hct hy
        · intro P hP
          obtain ⟨q, hqmem, d, hqd⟩ := hcompl P hP
          have hql : c.length ≤ q.length := qshape_front_min c rest hshape q hqmem
          have hqt : t ∉ q := (hinv q hqmem).2.2.2.2.1
          have htP : t ∈ P := mem_of_getLastQ hP.1.2.2.1
          have hd : d ≠ [] := by
            intro hdnil
            subst hdnil
            rw [List.append_nil] at hqd
            subst hqd
            exact hqt htP
          have : q.length + 1 ≤ P.length := by
            rw [← hqd, List.length_append]
            cases d with
            | nil => exact absurd rfl hd
            | cons d0 ds => simp
          rw [List.length_append]
          simp only [List.length_singleton]
          omega
      | inr pr =>
        obtain ⟨np2, q2⟩ := pr
        obtain ⟨htns, hq2⟩ := bfsInner_inr t c _ np rest np2 q2 hres
        have hchild : ∀ ch ∈ childrenOf c (g.get_neighbors (c.getLastD "")),
            QElem g s t u ch ∧ ch.length = c.length + 1 := by
          intro ch hch
          obtain ⟨x, hx, hnx, rfl⟩ := (mem_childrenOf _ _ _).mp hch
          refine ⟨⟨by simp, ?_, ?_, ?_, ?_, ?_⟩, by simp⟩
          · rw [List.head?_append_of_ne_nil c hcne]
            exact hchead
          · exact (isWalkB_append_one g c hcne x).mpr ⟨hcwalk, hx⟩
          · rw [List.nodup_append]
            refine ⟨hcnd, List.nodup_singleton x, ?_⟩
            intro y hy hy2
            simp only [List.mem_singleton] at hy2
            subst hy2
            exact hnx hy
          · intro hmem
            rcases List.mem_append.mp hmem with h | h
            · exact hct h
            · simp only [List.mem_singleton] at h
              exact htns x hx h.symm
          · intro y hy
            rcases List.mem_append.mp hy with h | h
            · exact hcu y h
            · simp only [List.mem_singleton] at h
              subst h
              exact hu _ y hx
        have hinv2 : ∀ p ∈ q2, QElem g s t u p := by
          rw [hq2]
          intro p hp
          rcases List.mem_append.mp hp with hp | hp
          · exact hinv p (List.mem_cons_of_mem _ hp)
          · exact (hchild p hp).1
        have hshape2 : QShape q2 := by
          rw [hq2]
          exact qshape_step c rest _ hshape (fun ch hch => (hchild ch hch).2)
        have hmeas2 : queueW g.maxDeg u.length q2 < fuel := by
          have hstep : queueW g.maxDeg u.length q2 <
              queueW g.maxDeg u.length (c :: rest) := by
            rw [hq2]
            apply queueW_step
            · exact fun ch hch => (hchild ch hch).2
            · exact le_trans (childrenOf_length_le _ _) (get_neighbors_length_le g _)
            · intro ch hch
              exact nodup_subset_length ((hchild ch hch).1).2.2.2.1
                (fun x hx => ((hchild ch hch).1).2.2.2.2.2 x hx)
          omega
        have hcompl2 : ∀ P, SimpleWalkFromTo g s t P →
            ∃ q ∈ q2, ∃ d, q ++ d = P := by
          intro P hP
          obtain ⟨q, hqmem, d, hqd⟩ := hcompl P hP
          rcases List.mem_cons.mp hqmem with rfl | hqrest
          · have htP : t ∈ P := mem_of_getLastQ hP.1.2.2.1
            have hd : d ≠ [] := by
              intro hdnil
              subst hdnil
              rw [List.append_nil] at hqd
              subst hqd
              exact hct htP
            cases d with
            | nil => exact absurd rfl hd
            | cons v d2 =>
              have hv : v ∈ g.get_neighbors (q.getLastD "") := by
                apply walk_mid_step g q hcne v d2
                rw [hqd]
                exact hP.1.2.2.2
              have hvq : v ∉ q := by
                intro hvq
                have hnd := hP.2
                rw [← hqd, List.nodup_append] at hnd
                exact hnd.2.2 hvq (List.mem_cons_self _ _)
              refine ⟨q ++ [v], ?_, d2, by rw [← hqd]; simp⟩
              rw [hq2]
              apply List.mem_append_right
              exact (mem_childrenOf _ _ _).mpr ⟨v, hv, hvq, rfl⟩
          · exact ⟨q, by rw [hq2]; exact List.mem_append_left _ hqrest, d, hqd⟩
        have := ih q2 np2 hmeas2 hinv2 hshape2 hcompl2
        simpa using this

end WordLadder

namespace WordLadder

/-- C2: for distinct start and target, `get_shortest_bfs_path` returns a
tuple that begins at start, ends at target, repeats no vertex, steps through
`get_neighbors` at every link, and is no longer than any start-to-target
walk whenever one exists; with no walk it returns the empty tuple. -/
theorem get_shortest_bfs_path_spec (g : Graph) (s t : String) (hst : s ≠ t) :
    ((∃ w, WalkFromTo g s t w) →
      ∃ p, g.get_shortest_bfs_path s t = PyResult.ok p ∧
        p.head? = some s ∧ p.getLast? = some t ∧ p.Nodup ∧
        isWalkB g p = true ∧
        ∀ w, WalkFromTo g s t w → p.length ≤ w.length) ∧
    ((¬ ∃ w, WalkFromTo g s t w) →
      g.get_shortest_bfs_path s t = PyResult.ok []) := by
  have hu : ∀ v x, x ∈ g.get_neighbors v → x ∈ g.universeFrom s :=
    fun v x hx => get_neighbors_sub_universe g s v x hx
  have hmeas : queueW g.maxDeg (g.universeFrom s).length [[s]] < g.bfsFuel s := by
    have h1 : queueW g.maxDeg (g.universeFrom s).length [[s]] =
        (g.maxDeg + 1) ^ (g.universeFrom s).length := by
      unfold queueW pathW
      simp
    rw [h1]
    unfold Graph.bfsFuel
    omega
  have hinv : ∀ p ∈ [[s]], QElem g s t (g.universeFrom s) p := by
    intro p hp
    simp only [List.mem_singleton] at hp
    subst hp
    refine ⟨by simp, by simp, rfl, by simp, ?_, ?_⟩
    · intro hmem
      simp only [List.mem_singleton] at hmem
      exact hst hmem.symm
    · intro x hx
      simp only [List.mem_singleton] at hx
      subst hx
      exact List.mem_cons_self _ _
  have hshape : QShape [[s]] := ⟨1, 1, 0, by simp⟩
  have hcompl : ∀ P, SimpleWalkFromTo g s t P → ∃ q ∈ [[s]], ∃ d, q ++ d = P := by
    intro P hP
    obtain ⟨⟨hne, hhead, -, -⟩, -⟩ := hP
    cases P with
    | nil => exact absurd rfl hne
    | cons a tl =>
      have ha : a = s := by simpa using hhead
      subst ha
      exact ⟨[a], by simp, tl, rfl⟩
  rcases bfs_master g s t hst (g.universeFrom s) hu (g.bfsFuel s) [[s]] none
      hmeas hinv hshape hcompl with hleft | hright
  · constructor
    · rintro ⟨w, hw⟩
      obtain ⟨q, hq, -⟩ := walk_to_simple g s t w hw
      exact absurd hq (hleft.2 q)
    · intro _
      exact hleft.1
  · obtain ⟨p, hres, hsimp, hmin⟩ := hright
    constructor
    · intro _
      refine ⟨p, hres, hsimp.1.2.1, hsimp.1.2.2.1, hsimp.2, hsimp.1.2.2.2, ?_⟩
      intro w hw
      obtain ⟨q, hq, hqlen⟩ := walk_to_simple g s t w hw
      exact le_trans (hmin q hq) hqlen
    · intro hnw
      exact absurd ⟨p, hsimp.1⟩ hnw

/-- Closed instance of `get_shortest_bfs_path_spec` on the two-vertex path
graph: a shortest path from "a" to "b" is produced. -/
theorem get_shortest_bfs_path_witness :
    ∃ p, (Graph.mk [("a", ["b"]), ("b", ["a"])]).get_shortest_bfs_path "a" "b" =
        PyResult.ok p ∧
      p.head? = some "a" ∧ p.getLast? = some "b" ∧ p.Nodup ∧
      isWalkB (Graph.mk [("a", ["b"]), ("b", ["a"])]) p = true ∧
      ∀ w, WalkFromTo (Graph.mk [("a", ["b"]), ("b", ["a"])]) "a" "b" w →
        p.length ≤ w.length :=
  (get_shortest_bfs_path_spec (Graph.mk [("a", ["b"]), ("b", ["a"])]) "a" "b"
    (by decide)).1 ⟨["a", "b"], by decide⟩

end WordLadder

namespace WordLadder

/-! ### Characterization of the inner neighbor loop of
`get_all_shortest_bfs_paths` -/

/-- Paths appended to the queue while processing `current_path = c`: neighbors
not on the path and different from the target. -/
def childrenOfA (t : String) (c ns : List String) : List (List String) :=
  (ns.filter (fun x => !(c.contains x) && x != t)).map (fun x => c ++ [x])

theorem mem_childrenOfA (t : String) (c ns : List String) (ch : List String) :
    ch ∈ childrenOfA t c ns ↔ ∃ x ∈ ns, x ∉ c ∧ x ≠ t ∧ ch = c ++ [x] := by
  unfold childrenOfA
  rw [List.mem_map]
  constructor
  · rintro ⟨x, hx, rfl⟩
    rw [List.mem_filter, Bool.and_eq_true] at hx
    obtain ⟨hmem, hrest⟩ := hx
    obtain ⟨hc, ht⟩ := hrest
    refine ⟨x, hmem, ?_, by simpa using ht, rfl⟩
    simp only [Bool.not_eq_true'] at hc
    intro hxc
    have hx2 : c.contains x = true := List.elem_iff.mpr hxc
    rw [hx2] at hc
    cases hc
  · rintro ⟨x, hx, hnc, hnt, rfl⟩
    refine ⟨x, ?_, rfl⟩
    rw [List.mem_filter, Bool.and_eq_true]
    refine ⟨hx, ?_, by simpa using hnt⟩
    simp only [Bool.not_eq_true']
    cases hcx : c.contains x with
    | false => rfl
    | true => exact absurd (List.elem_iff.mp hcx) hnc

theorem childrenOfA_length_le (t : String) (c ns : List String) :
    (childrenOfA t c ns).length ≤ ns.length := by
  unfold childrenOfA
  rw [List.length_map]
  exact List.length_filter_le _ _

theorem mem_addPath (paths : List (List String)) (q p : List String) :
    p ∈ addPath paths q ↔ p ∈ paths ∨ p = q := by
  unfold addPath
  by_cases h : paths.contains q = true
  · rw [if_pos h]
    constructor
    · exact Or.inl
    · rintro (hp | rfl)
      · exact hp
      · exact List.elem_iff.mp h
  · rw [if_neg h]
    rw [List.mem_append]
    simp

theorem mem_addPath_left (paths : List (List String)) (q p : List String)
    (hp : p ∈ paths) : p ∈ addPath paths q :=
  (mem_addPath paths q p).mpr (Or.inl hp)

theorem allInner_nil (t : String) (cur : List String)
    (paths : List (List String)) (minLen : Option Nat)
    (queue : List (List String)) :
    allInner t cur [] paths minLen queue = (paths, minLen, queue) := rfl

theorem allInner_cons (t : String) (cur : List String) (nb : String)
    (ns : List String) (paths : List (List String)) (minLen : Option Nat)
    (queue : List (List String)) :
    allInner t cur (nb :: ns) paths minLen queue =
      if cur.contains nb then allInner t cur ns paths minLen queue
      else
        if nb == t then
          if leMin (cur ++ [nb]).length minLen then
            allInner t cur ns (addPath paths (cur ++ [nb]))
              (some (cur ++ [nb]).length) queue
          else allInner t cur ns paths minLen queue
        else allInner t cur ns paths minLen (queue ++ [cur ++ [nb]]) := rfl

theorem allInner_queue (t : String) (cur : List String) :
    ∀ ns paths minLen queue,
      (allInner t cur ns paths minLen queue).2.2 =
        queue ++ childrenOfA t cur ns := by
  intro ns
  induction ns with
  | nil =>
    intro paths minLen queue
    rw [allInner_nil]
    simp [childrenOfA]
  | cons nb ns ih =>
    intro paths minLen queue
    rw [allInner_cons]
    by_cases hc : cur.contains nb = true
    · rw [if_pos hc, ih]
      unfold childrenOfA
      rw [List.filter_cons, if_neg (by rw [hc]; simp)]
    · rw [if_neg hc]
      by_cases hnt : (nb == t) = true
      · rw [if_pos hnt]
        have hfil : childrenOfA t cur (nb :: ns) = childrenOfA t cur ns := by
          unfold childrenOfA
          rw [List.filter_cons, if_neg (by simp [show nb = t by simpa using hnt])]
        by_cases hle : leMin (cur ++ [nb]).length minLen = true
        · rw [if_pos hle, ih, hfil]
        · rw [if_neg hle, ih, hfil]
      · rw [if_neg hnt, ih]
        have hfil : childrenOfA t cur (nb :: ns) =
            (cur ++ [nb]) :: childrenOfA t cur ns := by
          unfold childrenOfA
          have hc2 : cur.contains nb = false := Bool.eq_false_iff.mpr hc
          have hnt2 : (nb == t) = false := Bool.eq_false_iff.mpr hnt
          rw [List.filter_cons, if_pos (by
            simp only [Bool.and_eq_true, Bool.not_eq_true']
            exact ⟨hc2, by simp [bne, hnt2]⟩)]
          rfl
        rw [hfil, List.append_assoc]
        rfl

theorem allInner_paths_sub (t : String) (cur : List String) :
    ∀ ns paths minLen queue,
      ∀ p ∈ (allInner t cur ns paths minLen queue).1,
        p ∈ paths ∨ (p = cur ++ [t] ∧ t ∈ ns ∧ t ∉ cur) := by
  intro ns
  induction ns with
  | nil =>
    intro paths minLen queue p hp
    rw [allInner_nil] at hp
    exact Or.inl hp
  | cons nb ns ih =>
    intro paths minLen queue p hp
    rw [allInner_cons] at hp
    by_cases hc : cur.contains nb = true
    · rw [if_pos hc] at hp
      rcases ih paths minLen queue p hp with h | ⟨h1, h2, h3⟩
      · exact Or.inl h
      · exact Or.inr ⟨h1, List.mem_cons_of_mem _ h2, h3⟩
    · rw [if_neg hc] at hp
      by_cases hnt : (nb == t) = true
      · have hnbt : nb = t := by simpa using hnt
        subst hnbt
        rw [if_pos (by simp)] at hp
        by_cases hle : leMin (cur ++ [nb]).length minLen = true
        · rw [if_pos hle] at hp
          rcases ih _ _ queue p hp with h | ⟨h1, h2, h3⟩
          · rcases (mem_addPath paths _ p).mp h with h | h
            · exact Or.inl h
            · refine Or.inr ⟨h, List.mem_cons_self _ _, ?_⟩
              intro hmem
              exact hc (List.elem_iff.mpr hmem)
          · exact Or.inr ⟨h1, List.mem_cons_of_mem _ h2, h3⟩
        · rw [if_neg hle] at hp
          rcases ih paths minLen queue p hp with h | ⟨h1, h2, h3⟩
          · exact Or.inl h
          · exact Or.inr ⟨h1, List.mem_cons_of_mem _ h2, h3⟩
      · rw [if_neg hnt] at hp
        rcases ih paths minLen _ p hp with h | ⟨h1, h2, h3⟩
        · exact Or.inl h
        · exact Or.inr ⟨h1, List.mem_cons_of_mem _ h2, h3⟩

theorem allInner_paths_mono (t : String) (cur : List String) :
    ∀ ns paths minLen queue,
      ∀ p ∈ paths, p ∈ (allInner t cur ns paths minLen queue).1 := by
  intro ns
  induction ns with
  | nil =>
    intro paths minLen queue p hp
    rw [allInner_nil]
    exact hp
  | cons nb ns ih =>
    intro paths minLen queue p hp
    rw [allInner_cons]
    by_cases hc : cur.contains nb = true
    · rw [if_pos hc]
      exact ih paths minLen queue p hp
    · rw [if_neg hc]
      by_cases hnt : (nb == t) = true
      · rw [if_pos hnt]
        by_cases hle : leMin (cur ++ [nb]).length minLen = true
        · rw [if_pos hle]
          exact ih _ _ queue p (mem_addPath_left _ _ _ hp)
        · rw [if_neg hle]
          exact ih paths minLen queue p hp
      · rw [if_neg hnt]
        exact ih paths minLen _ p hp

theorem allInner_min (t : String) (cur : List String) :
    ∀ ns paths minLen queue,
      (allInner t cur ns paths minLen queue).2.1 = minLen ∨
      ((allInner t cur ns paths minLen queue).2.1 = some (cur.length + 1) ∧
        leMin (cur.length + 1) minLen = true ∧
        ∃ p ∈ (allInner t cur ns paths minLen queue).1,
          p.length = cur.length + 1) := by
  intro ns
  induction ns with
  | nil =>
    intro paths minLen queue
    rw [allInner_nil]
    exact Or.inl rfl
  | cons nb ns ih =>
    intro paths minLen queue
    rw [allInner_cons]
    by_cases hc : cur.contains nb = true
    · rw [if_pos hc]
      exact ih paths minLen queue
    · rw [if_neg hc]
      by_cases hnt : (nb == t) = true
      · rw [if_pos hnt]
        by_cases hle : leMin (cur ++ [nb]).length minLen = true
        · rw [if_pos hle]
          have hlen : (cur ++ [nb]).length = cur.length + 1 := by simp
          rw [hlen] at hle ⊢
          rcases ih (addPath paths (cur ++ [nb])) (some (cur.length + 1))
              queue with h | ⟨h1, -, h3⟩
          · right
            refine ⟨h, hle, cur ++ [nb], ?_, hlen⟩
            exact allInner_paths_mono t cur ns _ _ queue _
              ((mem_addPath paths _ _).mpr (Or.inr rfl))
          · right
            exact ⟨h1, hle, h3⟩
        · rw [if_neg hle]
          exact ih paths minLen queue
      · rw [if_neg hnt]
        exact ih paths minLen _

theorem allInner_hit (t : String) (cur : List String) :
    ∀ ns paths minLen queue,
      t ∈ ns → cur.contains t = false →
      leMin (cur.length + 1) minLen = true →
      (allInner t cur ns paths minLen queue).2.1 = some (cur.length + 1) := by
  intro ns
  induction ns with
  | nil =>
    intro paths minLen queue ht
    simp at ht
  | cons nb ns ih =>
    intro paths minLen queue ht hct hle
    rw [allInner_cons]
    by_cases hc : cur.contains nb = true
    · rw [if_pos hc]
      have hnbt : nb ≠ t := by
        intro h
        subst h
        rw [hct] at hc
        cases hc
      have ht2 : t ∈ ns := by
        rcases List.mem_cons.mp ht with h | h
        · exact absurd h.symm hnbt
        · exact h
      exact ih paths minLen queue ht2 hct hle
    · rw [if_neg hc]
      by_cases hnt : (nb == t) = true
      · rw [if_pos hnt]
        have hlen : (cur ++ [nb]).length = cur.length + 1 := by simp
        rw [if_pos (by rwa [hlen])]
        rw [hlen]
        rcases allInner_min t cur ns (addPath paths (cur ++ [nb]))
            (some (cur.length + 1)) queue with h | ⟨h1, -, -⟩
        · exact h
        · exact h1
      · rw [if_neg hnt]
        have ht2 : t ∈ ns := by
          rcases List.mem_cons.mp ht with h | h
          · exfalso
            exact absurd (by rw [h]; simp : (nb == t) = true) hnt
          · exact h
        exact ih paths minLen _ ht2 hct hle

end WordLadder

namespace WordLadder

theorem allAux_cons (g : Graph) (t : String) (fuel : Nat)
    (paths : List (List String)) (minLen : Option Nat) (cur : List String)
    (rest : List (List String)) :
    allAux g t (fuel + 1) paths minLen (cur :: rest) =
      allAux g t fuel
        (allInner t cur (g.get_neighbors (cur.getLastD "")) paths minLen rest).1
        (allInner t cur (g.get_neighbors (cur.getLastD "")) paths minLen rest).2.1
        (allInner t cur (g.get_neighbors (cur.getLastD "")) paths minLen rest).2.2 :=
  rfl

/-- Weak queue invariant for `get_all_shortest_bfs_paths` (holds for every
pair of endpoints, equal ones included). -/
def QElemA (g : Graph) (s : String) (p : List String) : Prop :=
  p ≠ [] ∧ p.head? = some s ∧ isWalkB g p = true ∧ p.Nodup

/-- Everything accumulated into `paths` is a simple walk from source to
target with at least one edge. -/
theorem allAux_sound (g : Graph) (s t : String) :
    ∀ fuel queue paths minLen paths2 minLen2,
      (∀ p ∈ queue, QElemA g s p) →
      (∀ p ∈ paths, SimpleWalkFromTo g s t p ∧ 2 ≤ p.length) →
      allAux g t fuel paths minLen queue = some (paths2, minLen2) →
      ∀ p ∈ paths2, SimpleWalkFromTo g s t p ∧ 2 ≤ p.length := by
  intro fuel
  induction fuel with
  | zero =>
    intro queue paths minLen paths2 minLen2 hq hp h
    simp [allAux] at h
  | succ fuel ih =>
    intro queue paths minLen paths2 minLen2 hq hp h
    cases queue with
    | nil =>
      have h2 : paths = paths2 ∧ minLen = minLen2 := by
        simp [allAux] at h
        exact ⟨h.1, h.2⟩
      rw [← h2.1]
      exact hp
    | cons cur rest =>
      rw [allAux_cons] at h
      obtain ⟨hcne, hchead, hcwalk, hcnd⟩ := hq cur (List.mem_cons_self _ _)
      have hpaths2 : ∀ p ∈ (allInner t cur
          (g.get_neighbors (cur.getLastD "")) paths minLen rest).1,
          SimpleWalkFromTo g s t p ∧ 2 ≤ p.length := by
        intro p hmem
        rcases allInner_paths_sub t cur _ paths minLen rest p hmem with
          hmem2 | ⟨rfl, htns, htc⟩
        · exact hp p hmem2
        · constructor
          · refine ⟨⟨by simp, ?_, List.getLast?_concat _, ?_⟩, ?_⟩
            · rw [List.head?_append_of_ne_nil cur hcne]
              exact hchead
            · exact (isWalkB_append_one g cur hcne t).mpr ⟨hcwalk, htns⟩
            · rw [List.nodup_append]
              refine ⟨hcnd, List.nodup_singleton t, ?_⟩
              intro y hy hy2
              simp only [List.mem_singleton] at hy2
              subst hy2
              exact htc hy
          · have : 1 ≤ cur.length := by
              cases cur with
              | nil => exact absurd rfl hcne
              | cons a l => simp
            rw [List.length_append]
            simp only [List.length_singleton]
            omega
      have hqueue2 : ∀ p ∈ (allInner t cur
          (g.get_neighbors (cur.getLastD "")) paths minLen rest).2.2,
          QElemA g s p := by
        rw [allInner_queue]
        intro p hmem
        rcases List.mem_append.mp hmem with hmem2 | hmem2
        · exact hq p (List.mem_cons_of_mem _ hmem2)
        · obtain ⟨x, hx, hnx, -, rfl⟩ := (mem_childrenOfA _ _ _ _).mp hmem2
          refine ⟨by simp, ?_, ?_, ?_⟩
          · rw [List.head?_append_of_ne_nil cur hcne]
            exact hchead
          · exact (isWalkB_append_one g cur hcne x).mpr ⟨hcwalk, hx⟩
          · rw [List.nodup_append]
            refine ⟨hcnd, List.nodup_singleton x, ?_⟩
            intro y hy hy2
            simp only [List.mem_singleton] at hy2
            subst hy2
            exact hnx hy
      exact ih _ _ _ paths2 minLen2 hqueue2 hpaths2 h

/-- The all-shortest-paths loop always terminates within the canonical
fuel. -/
theorem allAux_no_fuel_out (g : Graph) (t : String) (u : List String)
    (hu : ∀ v x, x ∈ g.get_neighbors v → x ∈ u) :
    ∀ fuel queue paths minLen,
      (∀ p ∈ queue, p.Nodup ∧ ∀ x ∈ p, x ∈ u) →
      queueW g.maxDeg u.length queue < fuel →
      allAux g t fuel paths minLen queue ≠ none := by
  intro fuel
  induction fuel with
  | zero =>
    intro queue paths minLen hinv hm
    exact absurd hm (Nat.not_lt_zero _)
  | succ fuel ih =>
    intro queue paths minLen hinv hm
    cases queue with
    | nil => simp [allAux]
    | cons cur rest =>
      rw [allAux_cons]
      have hchildinv : ∀ p ∈ childrenOfA t cur
          (g.get_neighbors (cur.getLastD "")),
          (p.Nodup ∧ ∀ x ∈ p, x ∈ u) ∧ p.length = cur.length + 1 := by
        intro p hp
        obtain ⟨x, hx, hnx, -, rfl⟩ := (mem_childrenOfA _ _ _ _).mp hp
        have hcinv := hinv cur (List.mem_cons_self _ _)
        refine ⟨⟨?_, ?_⟩, by simp⟩
        · rw [List.nodup_append]
          refine ⟨hcinv.1, List.nodup_singleton x, ?_⟩
          intro y hy hy2
          simp only [List.mem_singleton] at hy2
          subst hy2
          exact hnx hy
        · intro y hy
          rcases List.mem_append.mp hy with h | h
          · exact hcinv.2 y h
          · simp only [List.mem_singleton] at h
            subst h
            exact hu _ y hx
      have hinv2 : ∀ p ∈ (allInner t cur
          (g.get_neighbors (cur.getLastD "")) paths minLen rest).2.2,
          p.Nodup ∧ ∀ x ∈ p, x ∈ u := by
        rw [allInner_queue]
        intro p hp
        rcases List.mem_append.mp hp with h | h
        · exact hinv p (List.mem_cons_of_mem _ h)
        · exact (hchildinv p h).1
      have hmeas2 : queueW g.maxDeg u.length (allInner t cur
          (g.get_neighbors (cur.getLastD "")) paths minLen rest).2.2 < fuel := by
        have hstep : queueW g.maxDeg u.length (allInner t cur
            (g.get_neighbors (cur.getLastD "")) paths minLen rest).2.2 <
            queueW g.maxDeg u.length (cur :: rest) := by
          rw [allInner_queue]
          apply queueW_step
          · exact fun ch hch => (hchildinv ch hch).2
          · exact le_trans (childrenOfA_length_le _ _ _) (get_neighbors_length_le g _)
          · intro ch hch
            exact nodup_subset_length (hchildinv ch hch).1.1 (hchildinv ch hch).1.2
        omega
      exact ih _ _ _ hinv2 hmeas2

end WordLadder

namespace WordLadder

/-! ### Initial-state facts shared by the BFS corollaries -/

theorem init_meas (g : Graph) (s : String) :
    queueW g.maxDeg (g.universeFrom s).length [[s]] < g.bfsFuel s := by
  have h1 : queueW g.maxDeg (g.universeFrom s).length [[s]] =
      (g.maxDeg + 1) ^ (g.universeFrom s).length := by
    unfold queueW pathW
    simp
  rw [h1]
  unfold Graph.bfsFuel
  omega

theorem init_qelem (g : Graph) (s t : String) (hst : s ≠ t) :
    ∀ p ∈ [[s]], QElem g s t (g.universeFrom s) p := by
  intro p hp
  simp only [List.mem_singleton] at hp
  subst hp
  refine ⟨by simp, by simp, rfl, by simp, ?_, ?_⟩
  · intro hmem
    simp only [List.mem_singleton] at hmem
    exact hst hmem.symm
  · intro x hx
    simp only [List.mem_singleton] at hx
    subst hx
    exact List.mem_cons_self _ _

theorem init_compl (g : Graph) (s t : String) :
    ∀ P, SimpleWalkFromTo g s t P →
      ∃ q ∈ ([[s]] : List (List String)), ∃ d, q ++ d = P := by
  intro P hP
  obtain ⟨⟨hne, hhead, -, -⟩, -⟩ := hP
  cases P with
  | nil => exact absurd rfl hne
  | cons x tl =>
    have hx : x = s := by simpa using hhead
    subst hx
    exact ⟨[x], by simp, tl, rfl⟩

theorem nodup_head_last_ne (p : List String) (x y : String) (hnd : p.Nodup)
    (hlen : 2 ≤ p.length) (hh : p.head? = some x) (hl : p.getLast? = some y) :
    x ≠ y := by
  cases p with
  | nil => simp at hh
  | cons a tail =>
    have hax : a = x := by simpa using hh
    subst hax
    cases tail with
    | nil => simp at hlen
    | cons b rest =>
      rw [List.getLast?_cons_cons] at hl
      have hy : y ∈ b :: rest := mem_of_getLastQ hl
      intro heq
      subst heq
      exact (List.nodup_cons.mp hnd).1 hy

/-- Master lemma for the all-shortest-paths loop: with a minimal simple walk
`Pstar` fixed, the loop terminates and its final minimum is exactly
`Pstar.length`. -/
theorem all_master (g : Graph) (s t : String) (hst : s ≠ t) (u : List String)
    (hu : ∀ v x, x ∈ g.get_neighbors v → x ∈ u)
    (Pstar : List String) (hPs : SimpleWalkFromTo g s t Pstar)
    (hLmin : ∀ P, SimpleWalkFromTo g s t P → Pstar.length ≤ P.length) :
    ∀ fuel queue paths minLen,
      queueW g.maxDeg u.length queue < fuel →
      (∀ p ∈ queue, QElem g s t u p) →
      (∀ p ∈ paths, SimpleWalkFromTo g s t p) →
      (∀ m, minLen = some m → ∃ p ∈ paths, p.length = m) →
      ((∃ q ∈ queue, ∃ d, q ++ d = Pstar) ∨ minLen = some Pstar.length) →
      ∃ paths2 minLen2,
        allAux g t fuel paths minLen queue = some (paths2, minLen2) ∧
        minLen2 = some Pstar.length := by
  intro fuel
  induction fuel with
  | zero =>
    intro queue paths minLen hm
    exact absurd hm (Nat.not_lt_zero _)
  | succ fuel ih =>
    intro queue paths minLen hm hqinv hpinv hminv hdisj
    cases queue with
    | nil =>
      rcases hdisj with ⟨q, hq, -⟩ | hmin
      · simp at hq
      · exact ⟨paths, minLen, by simp [allAux], hmin⟩
    | cons cur rest =>
      rw [allAux_cons]
      obtain ⟨hcne, hchead, hcwalk, hcnd, hct, hcu⟩ := hqinv cur (List.mem_cons_self _ _)
      have hcontf : cur.contains t = false := by
        cases hcontb : cur.contains t with
        | false => rfl
        | true => exact absurd (List.elem_iff.mp hcontb) hct
      have hns : ∀ x ∈ g.get_neighbors (cur.getLastD ""), x ∈ u := hu _
      -- facts about the processed step
      have hpinv2 : ∀ p ∈ (allInner t cur
          (g.get_neighbors (cur.getLastD "")) paths minLen rest).1,
          SimpleWalkFromTo g s t p := by
        intro p hmem
        rcases allInner_paths_sub t cur _ paths minLen rest p hmem with
          hmem2 | ⟨rfl, htns, htc⟩
        · exact hpinv p hmem2
        · refine ⟨⟨by simp, ?_, List.getLast?_concat _, ?_⟩, ?_⟩
          · rw [List.head?_append_of_ne_nil cur hcne]
            exact hchead
          · exact (isWalkB_append_one g cur hcne t).mpr ⟨hcwalk, htns⟩
          · rw [List.nodup_append]
            refine ⟨hcnd, List.nodup_singleton t, ?_⟩
            intro y hy hy2
            simp only [List.mem_singleton] at hy2
            subst hy2
            exact htc hy
      have hminv2 : ∀ m, (allInner t cur
          (g.get_neighbors (cur.getLastD "")) paths minLen rest).2.1 = some m →
          ∃ p ∈ (allInner t cur
            (g.get_neighbors (cur.getLastD "")) paths minLen rest).1,
            p.length = m := by
        intro m hm2
        rcases allInner_min t cur _ paths minLen rest with h | ⟨h1, -, h3⟩
        · rw [h] at hm2
          obtain ⟨p, hp, hplen⟩ := hminv m hm2
          exact ⟨p, allInner_paths_mono t cur _ paths minLen rest p hp, hplen⟩
        · rw [h1] at hm2
          obtain ⟨p, hp, hplen⟩ := h3
          exact ⟨p, hp, by rw [hplen, Option.some.inj hm2]⟩
      have hqinv2 : ∀ p ∈ (allInner t cur
          (g.get_neighbors (cur.getLastD "")) paths minLen rest).2.2,
          QElem g s t u p := by
        rw [allInner_queue]
        intro p hp
        rcases List.mem_append.mp hp with h | h
        · exact hqinv p (List.mem_cons_of_mem _ h)
        · obtain ⟨x, hx, hnx, hxt, rfl⟩ := (mem_childrenOfA _ _ _ _).mp h
          refine ⟨by simp, ?_, ?_, ?_, ?_, ?_⟩
          · rw [List.head?_append_of_ne_nil cur hcne]
            exact hchead
          · exact (isWalkB_append_one g cur hcne x).mpr ⟨hcwalk, hx⟩
          · rw [List.nodup_append]
            refine ⟨hcnd, List.nodup_singleton x, ?_⟩
            intro y hy hy2
            simp only [List.mem_singleton] at hy2
            subst hy2
            exact hnx hy
          · intro hmem
            rcases List.mem_append.mp hmem with h2 | h2
            · exact hct h2
            · simp only [List.mem_singleton] at h2
              exact hxt h2.symm
          · intro y hy
            rcases List.mem_append.mp hy with h2 | h2
            · exact hcu y h2
            · simp only [List.mem_singleton] at h2
              subst h2
              exact hns _ hx
      have hmeas2 : queueW g.maxDeg u.length (allInner t cur
          (g.get_neighbors (cur.getLastD "")) paths minLen rest).2.2 < fuel := by
        have hstep : queueW g.maxDeg u.length (allInner t cur
            (g.get_neighbors (cur.getLastD "")) paths minLen rest).2.2 <
            queueW g.maxDeg u.length (cur :: rest) := by
          rw [allInner_queue]
          apply queueW_step
          · intro ch hch
            obtain ⟨x, -, -, -, rfl⟩ := (mem_childrenOfA _ _ _ _).mp hch
            simp
          · exact le_trans (childrenOfA_length_le _ _ _) (get_neighbors_length_le g _)
          · intro ch hch
            have h2 := hqinv2 ch (by rw [allInner_queue]; exact List.mem_append_right _ hch)
            exact nodup_subset_length h2.2.2.2.1 h2.2.2.2.2.2
        omega
      have hminle : ∀ m, minLen = some m → Pstar.length ≤ m := by
        intro m hm2
        obtain ⟨p, hp, hplen⟩ := hminv m hm2
        rw [← hplen]
        exact hLmin p (hpinv p hp)
      have hstable : minLen = some Pstar.length →
          (allInner t cur (g.get_neighbors (cur.getLastD ""))
            paths minLen rest).2.1 = some Pstar.length := by
        intro hm2
        rcases allInner_min t cur _ paths minLen rest with h | ⟨h1, h2, h3⟩
        · rw [h, hm2]
        · rw [hm2] at h2
          have hle : cur.length + 1 ≤ Pstar.length := by
            simpa [leMin] using h2
          obtain ⟨p, hp, hplen⟩ := h3
          have : Pstar.length ≤ cur.length + 1 := by
            rw [← hplen]
            exact hLmin p (hpinv2 p hp)
          rw [h1]
          congr 1
          omega
      have hdisj2 : (∃ q ∈ (allInner t cur
            (g.get_neighbors (cur.getLastD "")) paths minLen rest).2.2,
            ∃ d, q ++ d = Pstar) ∨
          (allInner t cur (g.get_neighbors (cur.getLastD ""))
            paths minLen rest).2.1 = some Pstar.length := by
        rcases hdisj with ⟨q, hqmem, d, hqd⟩ | hmin
        · rcases List.mem_cons.mp hqmem with rfl | hqrest
          · have htP : t ∈ Pstar := mem_of_getLastQ hPs.1.2.2.1
            have hd : d ≠ [] := by
              intro hdnil
              subst hdnil
              rw [List.append_nil] at hqd
              subst hqd
              exact hct htP
            cases d with
            | nil => exact absurd rfl hd
            | cons v d2 =>
              have hv : v ∈ g.get_neighbors (q.getLastD "") := by
                apply walk_mid_step g q hcne v d2
                rw [hqd]
                exact hPs.1.2.2.2
              have hvq : v ∉ q := by
                intro hvq
                have hnd := hPs.2
                rw [← hqd, List.nodup_append] at hnd
                exact hnd.2.2 hvq (List.mem_cons_self _ _)
              by_cases hvt : v = t
              · rw [hvt] at hqd hv hvq
                have hd2 : d2 = [] := by
                  by_contra hd2ne
                  have hnd := hPs.2
                  rw [← hqd] at hnd
                  have hndr : (t :: d2).Nodup := (List.nodup_append.mp hnd).2.1
                  have hlast2 : (t :: d2).getLast? = some t := by
                    have hPl : Pstar.getLast? = some t := hPs.1.2.2.1
                    rw [← hqd, List.getLast?_append_cons] at hPl
                    exact hPl
                  cases d2 with
                  | nil => exact hd2ne rfl
                  | cons w d3 =>
                    rw [List.getLast?_cons_cons] at hlast2
                    exact (List.nodup_cons.mp hndr).1 (mem_of_getLastQ hlast2)
                subst hd2
                have hPlen : Pstar.length = q.length + 1 := by
                  rw [← hqd]
                  simp
                right
                rw [hPlen]
                apply allInner_hit t q _ paths minLen rest
                · exact hv
                · exact hcontf
                · cases hminL : minLen with
                  | none => rfl
                  | some m =>
                    have := hminle m hminL
                    simp only [leMin]
                    rw [hPlen] at this
                    simpa using this
              · left
                refine ⟨q ++ [v], ?_, d2, by rw [← hqd]; simp⟩
                rw [allInner_queue]
                apply List.mem_append_right
                exact (mem_childrenOfA _ _ _ _).mpr ⟨v, hv, hvq, hvt, rfl⟩
          · left
            refine ⟨q, ?_, d, hqd⟩
            rw [allInner_queue]
            exact List.mem_append_left _ hqrest
        · exact Or.inr (hstable hmin)
      exact ih _ _ _ hmeas2 hqinv2 hpinv2 hminv2 hdisj2

end WordLadder

namespace WordLadder

/-- C4: all members of `get_all_shortest_bfs_paths(a, b)` have the same
number of vertices, and that length in edges (vertex count minus 1) is
exactly `get_shortest_bfs_path_length(a, b)`. -/
theorem get_all_shortest_spec (g : Graph) (a b : String) (l : List (List String))
    (hres : g.get_all_shortest_bfs_paths a b = some l) :
    (∀ p ∈ l, ∀ q ∈ l, p.length = q.length) ∧
    (∀ p ∈ l, g.get_shortest_bfs_path_length a b = PyResult.ok (p.length - 1)) := by
  unfold Graph.get_all_shortest_bfs_paths at hres
  cases hall : allAux g b (g.bfsFuel a) [] none [[a]] with
  | none =>
    rw [hall] at hres
    simp at hres
  | some pr =>
    obtain ⟨paths2, minLen2⟩ := pr
    rw [hall] at hres
    have hl : paths2.filter
        (fun p => (some p.length : Option Nat) == minLen2) = l :=
      Option.some.inj hres
    constructor
    · intro p hp q hq
      rw [← hl] at hp hq
      have hp3 : (some p.length : Option Nat) = minLen2 := by
        simpa using (List.mem_filter.mp hp).2
      have hq3 : (some q.length : Option Nat) = minLen2 := by
        simpa using (List.mem_filter.mp hq).2
      exact Option.some.inj (hp3.trans hq3.symm)
    · intro p hp
      rw [← hl] at hp
      have hpmem : p ∈ paths2 := (List.mem_filter.mp hp).1
      have hplen : (some p.length : Option Nat) = minLen2 := by
        simpa using (List.mem_filter.mp hp).2
      have hsound := allAux_sound g a b (g.bfsFuel a) [[a]] [] none paths2 minLen2
        (by
          intro p2 hp2
          simp only [List.mem_singleton] at hp2
          subst hp2
          exact ⟨by simp, by simp, rfl, by simp⟩)
        (by intro p2 hp2; simp at hp2)
        hall
      have hps := hsound p hpmem
      have hab : a ≠ b :=
        nodup_head_last_ne p a b hps.1.2 hps.2 hps.1.1.2.1 hps.1.1.2.2.1
      have hu : ∀ v x, x ∈ g.get_neighbors v → x ∈ g.universeFrom a :=
        fun v x hx => get_neighbors_sub_universe g a v x hx
      rcases bfs_master g a b hab (g.universeFrom a) hu (g.bfsFuel a) [[a]] none
          (init_meas g a) (init_qelem g a b hab) ⟨1, 1, 0, by simp⟩
          (init_compl g a b) with hleft | hright
      · exact absurd hps.1 (hleft.2 p)
      · obtain ⟨p0, hres0, hsimp0, hmin0⟩ := hright
        have hmast := all_master g a b hab (g.universeFrom a) hu p0 hsimp0 hmin0
          (g.bfsFuel a) [[a]] [] none (init_meas g a) (init_qelem g a b hab)
          (by intro p2 hp2; simp at hp2) (by intro m hm; simp at hm)
          (Or.inl (init_compl g a b p0 hsimp0))
        obtain ⟨paths2b, minLen2b, hallb, hminL⟩ := hmast
        rw [hall] at hallb
        have heq := Option.some.inj hallb
        injection heq with h1 h2
        have hplen2 : p.length = p0.length := by
          have hsome : (some p.length : Option Nat) = some p0.length := by
            rw [hplen, h2, hminL]
          exact Option.some.inj hsome
        have hlenfn : g.get_shortest_bfs_path_length a b =
            PyResult.ok (p0.length - 1) := by
          unfold Graph.get_shortest_bfs_path_length Graph.get_shortest_bfs_path
          rw [hres0]
          cases hp0 : p0 with
          | nil =>
            rw [hp0] at hsimp0
            exact absurd rfl hsimp0.1.1
          | cons x xs => simp
        rw [hlenfn, hplen2]

/-- Closed instance of `get_all_shortest_spec` on the diamond graph: the two
shortest paths from "A" to "D" both have 3 vertices and the reported length
is 2 edges. -/
theorem get_all_shortest_witness :
    (Graph.mk [("A", ["B", "C"]), ("B", ["A", "D"]), ("C", ["A", "D"]),
        ("D", ["B", "C"])]).get_all_shortest_bfs_paths "A" "D" =
      some [["A", "B", "D"], ["A", "C", "D"]] ∧
    (Graph.mk [("A", ["B", "C"]), ("B", ["A", "D"]), ("C", ["A", "D"]),
        ("D", ["B", "C"])]).get_shortest_bfs_path_length "A" "D" =
      PyResult.ok (["A", "B", "D"].length - 1) :=
  ⟨by decide,
   (get_all_shortest_spec
      (Graph.mk [("A", ["B", "C"]), ("B", ["A", "D"]), ("C", ["A", "D"]),
        ("D", ["B", "C"])]) "A" "D" [["A", "B", "D"], ["A", "C", "D"]]
      (by decide)).2 ["A", "B", "D"] (by decide)⟩

end WordLadder

namespace WordLadder

/-! ### The depth-first search of `get_all_ladders` -/

theorem dfsAux_succ (g : Graph) (t : String) (maxR : Option Nat) (fuel : Nat)
    (current : String) (path : List String) (acc : List (List String)) :
    dfsAux g t maxR (fuel + 1) current path acc =
      (if overBound maxR path.length then some acc
       else if current == t then some (addPath acc path)
       else dfsFold (fun nb path2 acc2 => dfsAux g t maxR fuel nb path2 acc2)
         path (g.get_neighbors current) acc) := rfl

theorem dfsFold_nil (f : String → List String → List (List String) →
    Option (List (List String))) (path : List String)
    (acc : List (List String)) : dfsFold f path [] acc = some acc := rfl

theorem dfsFold_cons (f : String → List String → List (List String) →
    Option (List (List String))) (path : List String) (nb : String)
    (ns : List String) (acc : List (List String)) :
    dfsFold f path (nb :: ns) acc =
      (if path.contains nb then dfsFold f path ns acc
       else
        match f nb (path ++ [nb]) acc with
        | none => none
        | some acc2 => dfsFold f path ns acc2) := rfl

theorem overBound_mono (maxR : Option Nat) (a b : Nat) (hab : a ≤ b)
    (h : overBound maxR a = true) : overBound maxR b = true := by
  cases maxR with
  | none => simp [overBound] at h
  | some m =>
    simp only [overBound, decide_eq_true_iff] at h ⊢
    omega

theorem getLast?_of_ne_nil (l : List String) (h : l ≠ []) :
    l.getLast? = some (l.getLastD "") := by
  rw [List.getLastD_eq_getLast?]
  cases hl : l.getLast? with
  | none => exact absurd (List.getLast?_eq_none_iff.mp hl) h
  | some a => rfl

theorem not_mem_of_dropLast_last (p : List String) (t : String) (hne : p ≠ [])
    (h1 : t ∉ p.dropLast) (h2 : p.getLastD "" ≠ t) : t ∉ p := by
  intro hmem
  have hdecomp : p.dropLast ++ [p.getLast hne] = p :=
    List.dropLast_append_getLast hne
  have hlast : p.getLast hne = p.getLastD "" := by
    have := getLast?_of_ne_nil p hne
    rw [List.getLast?_eq_getLast _ hne] at this
    exact Option.some.inj this
  rw [← hdecomp] at hmem
  rcases List.mem_append.mp hmem with h | h
  · exact h1 h
  · simp only [List.mem_singleton] at h
    rw [h, hlast] at h2
    exact h2 rfl

theorem dfsAux_no_none (g : Graph) (t : String) (maxR : Option Nat)
    (u : List String) (hu : ∀ v x, x ∈ g.get_neighbors v → x ∈ u) :
    ∀ fuel current path acc,
      path.Nodup → (∀ x ∈ path, x ∈ u) →
      u.length + 2 ≤ fuel + path.length →
      dfsAux g t maxR fuel current path acc ≠ none := by
  intro fuel
  induction fuel with
  | zero =>
    intro current path acc hnd hsub hge
    have := nodup_subset_length hnd hsub
    omega
  | succ fuel ih =>
    intro current path acc hnd hsub hge
    rw [dfsAux_succ]
    by_cases hb : overBound maxR path.length = true
    · rw [if_pos hb]
      simp
    · rw [if_neg hb]
      by_cases hcur : (current == t) = true
      · rw [if_pos hcur]
        simp
      · rw [if_neg hcur]
        have hfold : ∀ ns acc2,
            (∀ x ∈ ns, x ∈ g.get_neighbors current) →
            dfsFold (fun nb p a => dfsAux g t maxR fuel nb p a)
              path ns acc2 ≠ none := by
          intro ns
          induction ns with
          | nil =>
            intro acc2 hmem
            rw [dfsFold_nil]
            simp
          | cons nb ns ihn =>
            intro acc2 hmem
            rw [dfsFold_cons]
            by_cases hc : path.contains nb = true
            · rw [if_pos hc]
              exact ihn acc2 (fun x hx => hmem x (List.mem_cons_of_mem _ hx))
            · rw [if_neg hc]
              cases hcall : dfsAux g t maxR fuel nb (path ++ [nb]) acc2 with
              | none =>
                exfalso
                refine ih nb (path ++ [nb]) acc2 ?_ ?_ ?_ hcall
                · rw [List.nodup_append]
                  refine ⟨hnd, List.nodup_singleton nb, ?_⟩
                  intro y hy hy2
                  simp only [List.mem_singleton] at hy2
                  subst hy2
                  exact (fun hmem2 => hc (List.elem_iff.mpr hmem2)) hy
                · intro y hy
                  rcases List.mem_append.mp hy with h | h
                  · exact hsub y h
                  · simp only [List.mem_singleton] at h
                    subst h
                    exact hu _ y (hmem y (List.mem_cons_self _ _))
                · rw [List.length_append]
                  simp only [List.length_singleton]
                  omega
              | some acc3 =>
                simp only [hcall]
                exact ihn acc3 (fun x hx => hmem x (List.mem_cons_of_mem _ hx))
        exact hfold _ acc (fun x hx => hx)

end WordLadder

namespace WordLadder

/-- A completed ladder found by `find_ladders` below the frame whose partial
path is `base`: an extension of `base` that is a duplicate-free walk ending
at the target and within the length bound. -/
def DfsExt (g : Graph) (t : String) (maxR : Option Nat)
    (base q : List String) : Prop :=
  (∃ e, base ++ e = q) ∧ isWalkB g q = true ∧ q.Nodup ∧
    q.getLast? = some t ∧ overBound maxR q.length = false

/-- Characterization of `find_ladders`: the accumulated set grows by exactly
the completed ladders extending the current partial path. -/
theorem dfs_spec (g : Graph) (t : String) (maxR : Option Nat)
    (u : List String) (hu : ∀ v x, x ∈ g.get_neighbors v → x ∈ u) :
    ∀ fuel current path acc,
      path ≠ [] →
      path.getLastD "" = current →
      path.Nodup →
      isWalkB g path = true →
      (∀ x ∈ path, x ∈ u) →
      t ∉ path.dropLast →
      u.length + 2 ≤ fuel + path.length →
      ∃ res, dfsAux g t maxR fuel current path acc = some res ∧
        ∀ q, q ∈ res ↔ (q ∈ acc ∨ DfsExt g t maxR path q) := by
  intro fuel
  induction fuel with
  | zero =>
    intro current path acc hne hlast hnd hwalk hsub ht hge
    have := nodup_subset_length hnd hsub
    omega
  | succ fuel ih =>
    intro current path acc hne hlast hnd hwalk hsub ht hge
    rw [dfsAux_succ]
    by_cases hb : overBound maxR path.length = true
    · rw [if_pos hb]
      refine ⟨acc, rfl, ?_⟩
      intro q
      constructor
      · exact Or.inl
      · rintro (h | ⟨⟨e, rfl⟩, -, -, -, hlen⟩)
        · exact h
        · exfalso
          have hmono : overBound maxR (path ++ e).length = true :=
            overBound_mono maxR path.length _ (by simp) hb
          rw [hmono] at hlen
          exact Bool.noConfusion hlen
    · rw [if_neg hb]
      by_cases hcur : (current == t) = true
      · rw [if_pos hcur]
        have hct : current = t := by simpa using hcur
        have hplast : path.getLast? = some t := by
          rw [getLast?_of_ne_nil _ hne, hlast, hct]
        refine ⟨addPath acc path, rfl, ?_⟩
        intro q
        rw [mem_addPath]
        constructor
        · rintro (h | rfl)
          · exact Or.inl h
          · exact Or.inr ⟨⟨[], by simp⟩, hwalk, hnd, hplast,
              Bool.eq_false_iff.mpr hb⟩
        · rintro (h | ⟨⟨e, rfl⟩, hqw, hqnd, hqlast, hqlen⟩)
          · exact Or.inl h
          · right
            cases e with
            | nil => rw [List.append_nil]
            | cons v e2 =>
              exfalso
              have htpath : t ∈ path := mem_of_getLastQ hplast
              have hte : t ∈ v :: e2 := by
                rw [List.getLast?_append] at hqlast
                cases hvl : (v :: e2).getLast? with
                | none => exact absurd (List.getLast?_eq_none_iff.mp hvl) (by simp)
                | some w =>
                  rw [hvl] at hqlast
                  have hw : w = t := by
                    simpa [Option.or] using hqlast
                  rw [← hw]
                  exact mem_of_getLastQ hvl
              rw [List.nodup_append] at hqnd
              exact hqnd.2.2 htpath hte
      · rw [if_neg hcur]
        have hcnt : current ≠ t := fun h => hcur (by simp [h])
        have htpath : t ∉ path :=
          not_mem_of_dropLast_last path t hne ht (by rw [hlast]; exact hcnt)
        have hfold : ∀ ns, (∀ x ∈ ns, x ∈ g.get_neighbors current) →
            ∀ acc2, ∃ res,
              dfsFold (fun nb p a => dfsAux g t maxR fuel nb p a)
                path ns acc2 = some res ∧
              ∀ q, q ∈ res ↔ (q ∈ acc2 ∨
                ∃ nb ∈ ns, nb ∉ path ∧ DfsExt g t maxR (path ++ [nb]) q) := by
          intro ns
          induction ns with
          | nil =>
            intro hmem acc2
            rw [dfsFold_nil]
            refine ⟨acc2, rfl, ?_⟩
            intro q
            simp
          | cons nb ns ihn =>
            intro hmem acc2
            rw [dfsFold_cons]
            by_cases hc : path.contains nb = true
            · rw [if_pos hc]
              obtain ⟨res, hres, hchar⟩ :=
                ihn (fun x hx => hmem x (List.mem_cons_of_mem _ hx)) acc2
              refine ⟨res, hres, ?_⟩
              intro q
              rw [hchar q]
              constructor
              · rintro (h | ⟨nb2, hnb2, hnp, hext⟩)
                · exact Or.inl h
                · exact Or.inr ⟨nb2, List.mem_cons_of_mem _ hnb2, hnp, hext⟩
              · rintro (h | ⟨nb2, hnb2, hnp, hext⟩)
                · exact Or.inl h
                · rcases List.mem_cons.mp hnb2 with rfl | h2
                  · exact absurd (List.elem_iff.mp hc) hnp
                  · exact Or.inr ⟨nb2, h2, hnp, hext⟩
            · rw [if_neg hc]
              have hnbp : nb ∉ path := fun h => hc (List.elem_iff.mpr h)
              have hnbn : nb ∈ g.get_neighbors current :=
                hmem nb (List.mem_cons_self _ _)
              have hnd2 : (path ++ [nb]).Nodup := by
                rw [List.nodup_append]
                refine ⟨hnd, List.nodup_singleton nb, ?_⟩
                intro y hy hy2
                simp only [List.mem_singleton] at hy2
                subst hy2
                exact hnbp hy
              have hwalk2 : isWalkB g (path ++ [nb]) = true :=
                (isWalkB_append_one g path hne nb).mpr
                  ⟨hwalk, by rw [hlast]; exact hnbn⟩
              have hsub2 : ∀ x ∈ path ++ [nb], x ∈ u := by
                intro y hy
                rcases List.mem_append.mp hy with h | h
                · exact hsub y h
                · simp only [List.mem_singleton] at h
                  subst h
                  exact hu _ y hnbn
              have ht2 : t ∉ (path ++ [nb]).dropLast := by
                rw [List.dropLast_concat]
                exact htpath
              have hge2 : u.length + 2 ≤ fuel + (path ++ [nb]).length := by
                rw [List.length_append]
                simp only [List.length_singleton]
                omega
              obtain ⟨res1, hres1, hchar1⟩ := ih nb (path ++ [nb]) acc2
                (by simp) (by simp [List.getLastD_eq_getLast?]) hnd2 hwalk2
                hsub2 ht2 hge2
              obtain ⟨res2, hres2, hchar2⟩ :=
                ihn (fun x hx => hmem x (List.mem_cons_of_mem _ hx)) res1
              refine ⟨res2, ?_, ?_⟩
              · rw [hres1]
                exact hres2
              · intro q
                rw [hchar2 q]
                constructor
                · rintro (h1 | ⟨nb2, hnb2, hnp, hext⟩)
                  · rcases (hchar1 q).mp h1 with h | hext1
                    · exact Or.inl h
                    · exact Or.inr ⟨nb, List.mem_cons_self _ _, hnbp, hext1⟩
                  · exact Or.inr ⟨nb2, List.mem_cons_of_mem _ hnb2, hnp, hext⟩
                · rintro (h1 | ⟨nb2, hnb2, hnp, hext⟩)
                  · exact Or.inl ((hchar1 q).mpr (Or.inl h1))
                  · rcases List.mem_cons.mp hnb2 with rfl | h2
                    · exact Or.inl ((hchar1 q).mpr (Or.inr hext))
                    · exact Or.inr ⟨nb2, h2, hnp, hext⟩
        obtain ⟨res, hres, hchar⟩ :=
          hfold (g.get_neighbors current) (fun x hx => hx) acc
        refine ⟨res, hres, ?_⟩
        intro q
        rw [hchar q]
        constructor
        · rintro (h | ⟨nb, hnb, hnp, ⟨e, rfl⟩, hqw, hqnd, hqlast, hqlen⟩)
          · exact Or.inl h
          · refine Or.inr ⟨⟨[nb] ++ e, by rw [List.append_assoc]⟩,
              hqw, hqnd, hqlast, hqlen⟩
        · rintro (h | ⟨⟨e, rfl⟩, hqw, hqnd, hqlast, hqlen⟩)
          · exact Or.inl h
          · cases e with
            | nil =>
              exfalso
              rw [List.append_nil] at hqlast
              rw [getLast?_of_ne_nil _ hne, hlast] at hqlast
              exact hcnt (Option.some.inj hqlast)
            | cons v e2 =>
              have hv : v ∈ g.get_neighbors current := by
                rw [← hlast]
                exact walk_mid_step g path hne v e2 hqw
              have hvp : v ∉ path := by
                intro hvp
                rw [List.nodup_append] at hqnd
                exact hqnd.2.2 hvp (List.mem_cons_self _ _)
              refine Or.inr ⟨v, hv, hvp, ⟨e2, by rw [List.append_assoc]; rfl⟩,
                hqw, hqnd, hqlast, hqlen⟩

end WordLadder

namespace WordLadder

theorem get_all_ladders_known (g : Graph) (start target : String)
    (maxR : Option Nat)
    (hs : g.vertices.contains (pyLower start) = true)
    (ht : g.vertices.contains (pyLower target) = true) :
    ∃ l, get_all_ladders g start target maxR = some l ∧
      ∀ q, q ∈ l ↔ DfsExt g (pyLower target) maxR [pyLower start] q := by
  unfold get_all_ladders
  rw [if_neg (by rw [hs, ht]; simp)]
  obtain ⟨res, hres, hchar⟩ := dfs_spec g (pyLower target) maxR
    (g.universeFrom (pyLower start))
    (fun v x hx => get_neighbors_sub_universe g _ v x hx)
    (g.dfsFuel (pyLower start)) (pyLower start) [pyLower start] []
    (by simp) (by simp [List.getLastD_eq_getLast?]) (by simp) rfl
    (by
      intro x hx
      simp only [List.mem_singleton] at hx
      subst hx
      exact List.mem_cons_self _ _)
    (by simp)
    (by show _ + 2 ≤ ((g.universeFrom (pyLower start)).length + 2) + 1; omega)
  refine ⟨res, hres, ?_⟩
  intro q
  rw [hchar q]
  simp

theorem get_all_ladders_unknown (g : Graph) (start target : String)
    (maxR : Option Nat)
    (h : ¬ ((pyLower start) ∈ g.vertices ∧ (pyLower target) ∈ g.vertices)) :
    get_all_ladders g start target maxR = some [] := by
  unfold get_all_ladders
  by_cases hs : g.vertices.contains (pyLower start) = true
  · by_cases ht2 : g.vertices.contains (pyLower target) = true
    · exact absurd ⟨List.elem_iff.mp hs, List.elem_iff.mp ht2⟩ h
    · rw [if_pos (by rw [Bool.eq_false_iff.mpr ht2]; simp)]
  · rw [if_pos (by rw [Bool.eq_false_iff.mpr hs]; simp)]

theorem dfsExt_iff_simpleWalk (g : Graph) (s t : String) (mr : Nat)
    (q : List String) :
    DfsExt g t (some mr) [s] q ↔
      (SimpleWalkFromTo g s t q ∧ q.length ≤ mr + 1) := by
  unfold DfsExt SimpleWalkFromTo WalkFromTo
  constructor
  · rintro ⟨⟨e, rfl⟩, hw, hnd, hlast, hlen⟩
    refine ⟨⟨⟨by simp, by simp, hlast, hw⟩, hnd⟩, ?_⟩
    simp only [overBound, decide_eq_false_iff_not] at hlen
    omega
  · rintro ⟨⟨⟨hne, hh, hl, hw⟩, hnd⟩, hlen⟩
    cases q with
    | nil => exact absurd rfl hne
    | cons a tail =>
      have ha : a = s := by simpa using hh
      subst ha
      refine ⟨⟨tail, rfl⟩, hw, hnd, hl, ?_⟩
      exact decide_eq_false (by omega)

theorem dfsExt_self_iff (g : Graph) (s : String) (mr : Nat)
    (q : List String) :
    DfsExt g s (some mr) [s] q ↔ q = [s] := by
  constructor
  · rintro ⟨⟨e, rfl⟩, hw, hnd, hlast, hlen⟩
    cases e with
    | nil => rfl
    | cons v e2 =>
      exfalso
      have hse : s ∈ v :: e2 := by
        rw [List.getLast?_append] at hlast
        cases hvl : (v :: e2).getLast? with
        | none => exact absurd (List.getLast?_eq_none_iff.mp hvl) (by simp)
        | some w =>
          rw [hvl] at hlast
          have hw2 : w = s := by simpa [Option.or] using hlast
          rw [← hw2]
          exact mem_of_getLastQ hvl
      rw [List.nodup_append] at hnd
      exact hnd.2.2 (List.mem_singleton.mpr rfl) hse
  · rintro rfl
    refine ⟨⟨[], by simp⟩, rfl, by simp, by simp, ?_⟩
    show overBound (some mr) [s].length = false
    simp only [overBound, List.length_singleton]
    exact decide_eq_false (by omega)

/-- C5: on a LadderGraph with both lowercased endpoints known,
`get_all_ladders` returns exactly the simple `get_neighbors`-walks from
start to target with at most `max_rungs + 1` vertices; with an unknown
endpoint it returns the empty set; with equal endpoints the single
one-vertex ladder. -/
theorem get_all_ladders_spec (ws : List String) (start target : String)
    (maxRungs : Nat) :
    ((pyLower start) ∈ (LadderGraph.ofWords ws).vertices →
      (pyLower target) ∈ (LadderGraph.ofWords ws).vertices →
      ∃ l, get_all_ladders (LadderGraph.ofWords ws) start target
          (some maxRungs) = some l ∧
        ∀ q, q ∈ l ↔
          (SimpleWalkFromTo (LadderGraph.ofWords ws) (pyLower start)
              (pyLower target) q ∧
            q.length ≤ maxRungs + 1)) ∧
    ((¬ ((pyLower start) ∈ (LadderGraph.ofWords ws).vertices ∧
        (pyLower target) ∈ (LadderGraph.ofWords ws).vertices)) →
      get_all_ladders (LadderGraph.ofWords ws) start target
        (some maxRungs) = some []) ∧
    (pyLower start = pyLower target →
      (pyLower start) ∈ (LadderGraph.ofWords ws).vertices →
      ∃ l, get_all_ladders (LadderGraph.ofWords ws) start target
          (some maxRungs) = some l ∧
        ∀ q, q ∈ l ↔ q = [pyLower start]) := by
  refine ⟨?_, ?_, ?_⟩
  · intro hs ht
    obtain ⟨l, hres, hchar⟩ := get_all_ladders_known (LadderGraph.ofWords ws)
      start target (some maxRungs) (List.elem_iff.mpr hs) (List.elem_iff.mpr ht)
    exact ⟨l, hres, fun q => (hchar q).trans (dfsExt_iff_simpleWalk _ _ _ _ q)⟩
  · exact get_all_ladders_unknown _ start target _
  · intro heq hs
    obtain ⟨l, hres, hchar⟩ := get_all_ladders_known (LadderGraph.ofWords ws)
      start target (some maxRungs) (List.elem_iff.mpr hs)
      (List.elem_iff.mpr (heq ▸ hs))
    refine ⟨l, hres, fun q => ?_⟩
    rw [hchar q, ← heq]
    exact dfsExt_self_iff _ _ _ q

/-- Closed instance of `get_all_ladders_spec`: in the word list
["ab", "ac"] the only ladder from "ab" to "ac" within 2 vertices is
("ab", "ac"). -/
theorem get_all_ladders_witness :
    ∃ l, get_all_ladders (LadderGraph.ofWords ["ab", "ac"]) "ab" "ac"
        (some 1) = some l ∧
      ∀ q, q ∈ l ↔
        (SimpleWalkFromTo (LadderGraph.ofWords ["ab", "ac"]) (pyLower "ab")
            (pyLower "ac") q ∧
          q.length ≤ 1 + 1) :=
  (get_all_ladders_spec ["ab", "ac"] "ab" "ac" 1).1 (by decide) (by decide)

end WordLadder

namespace WordLadder

/-- C10: every traversal query terminates on every finite graph: the three
search loops only ever extend a partial path with a vertex not already on
it, so the canonical fuel (a fixed function of the graph) never runs out —
for `get_shortest_bfs_path`, `get_all_shortest_bfs_paths` and
`get_all_ladders`, the latter even with `max_rungs` left unbounded
(`maxR = none`). -/
theorem traversal_terminates (g : Graph) (s t : String) (maxR : Option Nat) :
    g.get_shortest_bfs_path s t ≠ PyResult.outOfFuel ∧
    g.get_all_shortest_bfs_paths s t ≠ none ∧
    get_all_ladders g s t maxR ≠ none := by
  have hsingleton : ∀ p ∈ [[s]], p.Nodup ∧ ∀ x ∈ p, x ∈ g.universeFrom s := by
    intro p hp
    simp only [List.mem_singleton] at hp
    subst hp
    refine ⟨by simp, ?_⟩
    intro x hx
    simp only [List.mem_singleton] at hx
    subst hx
    exact List.mem_cons_self _ _
  refine ⟨?_, ?_, ?_⟩
  · unfold Graph.get_shortest_bfs_path
    exact bfsAux_no_fuel_out g t (g.universeFrom s)
      (fun v x hx => get_neighbors_sub_universe g s v x hx)
      (g.bfsFuel s) [[s]] none hsingleton (init_meas g s)
  · unfold Graph.get_all_shortest_bfs_paths
    cases hall : allAux g t (g.bfsFuel s) [] none [[s]] with
    | none =>
      exact absurd hall (allAux_no_fuel_out g t (g.universeFrom s)
        (fun v x hx => get_neighbors_sub_universe g s v x hx)
        (g.bfsFuel s) [[s]] [] none hsingleton (init_meas g s))
    | some pr =>
      obtain ⟨a2, b2⟩ := pr
      simp
  · unfold get_all_ladders
    by_cases hguard : (!(g.vertices.contains (pyLower s)) ||
        !(g.vertices.contains (pyLower t))) = true
    · rw [if_pos hguard]
      simp
    · rw [if_neg hguard]
      refine dfsAux_no_none g (pyLower t) maxR (g.universeFrom (pyLower s))
        (fun v x hx => get_neighbors_sub_universe g (pyLower s) v x hx)
        (g.dfsFuel (pyLower s)) (pyLower s) [pyLower s] [] (by simp) ?_ ?_
      · intro x hx
        simp only [List.mem_singleton] at hx
        subst hx
        exact List.mem_cons_self _ _
      · show _ + 2 ≤ ((g.universeFrom (pyLower s)).length + 2) + 1
        omega

end WordLadder
